import Mathlib

/-!
Verification development for the `scriptgraph` repository: a shallow
embedding in Lean 4 of the path canonicalizer (`scriptgraph/utils.py`),
the graph container (`scriptgraph/graph.py`), the shell parser
(`scriptgraph/parsers/shell.py`), the Python-CLI parser and scanner
(`scriptgraph/parsers/python_cli.py`, `scriptgraph/scanner.py`), the
role-based resolver (`scriptgraph/agents.py`) and the standalone
`AgentMapper` (`scriptgraph/agent_mapper.py`), together with theorems
settling the frozen specification claims.

Python strings are modelled as `List Char`.  Python's `str.replace`
(all non-overlapping occurrences, left to right) is modelled by a
structural scanner `pyRepGo` so that every definition is executable by
kernel reduction.
-/

/-- Convert a Lean string literal to the `List Char` representation used
throughout this development. -/
def chars (s : String) : List Char := s.toList

abbrev Str := List Char

/-- Model of Python `s.startswith(pat)` / regex-literal prefix test:
`hasPfxL pat s` is true when `pat` is an initial segment of `s`. -/
def hasPfxL : Str → Str → Bool
  | [], _ => true
  | _ :: _, [] => false
  | p :: ps, c :: cs => p = c && hasPfxL ps cs

/-- Model of Python `pat in s` (substring containment). -/
def containsSub : Str → Str → Bool
  | [], pat => hasPfxL pat []
  | s@(_ :: rest), pat => hasPfxL pat s || containsSub rest pat

/-- Scanner underlying the model of Python `s.replace(pat, rep)`.
`skip > 0` means we are inside the tail of a replaced occurrence and the
next `skip` characters are dropped.  At `skip = 0` the scanner tries to
match `pat` at the current position; on a match it emits `rep` and skips
the rest of the occurrence, otherwise it copies one character.  This is
exactly CPython's left-to-right non-overlapping replacement. -/
def pyRepGo (pat rep : Str) : Str → Nat → Str
  | [], _ => []
  | c :: rest, skip =>
    match skip with
    | k + 1 => pyRepGo pat rep rest k
    | 0 =>
      if pat ≠ [] ∧ hasPfxL pat (c :: rest) then
        rep ++ pyRepGo pat rep rest (pat.length - 1)
      else
        c :: pyRepGo pat rep rest 0

/-- Model of Python `s.replace(pat, rep)`. -/
def pyReplace (s pat rep : Str) : Str := pyRepGo pat rep s 0

/-- The one-character string `"\\"` (a single backslash). -/
def bsL : Str := ['\\']

/-- The one-character string `"/"`. -/
def slashL : Str := ['/']

/-- The two-character string `"./"`. -/
def dotSlashL : Str := ['.', '/']

/-- The three-character string `"/./"`. -/
def slashDotSlashL : Str := ['/', '.', '/']

/-- The two-character string `"//"`. -/
def dslashL : Str := ['/', '/']

/-- Fuelled version of the `while "//" in p: p = p.replace("//", "/")`
loop of `utils.canon`.  Each iteration that fires strictly shortens the
string, so `s.length + 1` units of fuel always suffice. -/
def collapseF : Nat → Str → Str
  | 0, s => s
  | n + 1, s =>
    if containsSub s dslashL then collapseF n (pyReplace s dslashL slashL)
    else s

/-- The `while "//" in p` loop of `utils.canon`, with always-sufficient fuel. -/
def collapseSlashes (s : Str) : Str := collapseF (s.length + 1) s

/-- Embedding of `utils.canon`:
`p.replace("\\", "/")`, then `re.sub(r"^\./", "", p)` (which, `^`-anchored
and without `re.M`, strips at most one leading `"./"`), then one
left-to-right pass of `p.replace("/./", "/")`, then the `"//"`-collapsing
loop. -/
def canon (p : Str) : Str :=
  let p1 := pyReplace p bsL slashL
  let p2 := if hasPfxL dotSlashL p1 then p1.drop 2 else p1
  let p3 := pyReplace p2 slashDotSlashL slashL
  collapseSlashes p3

example : canon (chars "a\\b//c.sh") = chars "a/b/c.sh" := by decide
example : canon (chars "./x/./y.sh") = chars "x/y.sh" := by decide
example : canon (chars "././x") = chars "./x" := by decide
example : canon (chars "a/../b.sh") = chars "a/../b.sh" := by decide
example : canon (chars "./././a.sh") = chars "./a.sh" := by decide

/-- Whitespace characters stripped by Python's `str.strip()` (ASCII range). -/
def isPyWs (c : Char) : Bool :=
  c = ' ' || c = '\t' || c = '\n' || c = '\r' || c = '\x0b' || c = '\x0c'

/-- Strip characters satisfying `f` from both ends of a string. -/
def pyStripBy (f : Char → Bool) (s : Str) : Str :=
  ((s.dropWhile f).reverse.dropWhile f).reverse

/-- Model of Python `s.strip()`. -/
def pyStripWs (s : Str) : Str := pyStripBy isPyWs s

/-- Model of Python `s.strip(c)` for a single character `c`. -/
def pyStripChar (c : Char) (s : Str) : Str := pyStripBy (fun x => x = c) s

/-- Model of Python `s.lower()` (ASCII case folding, as every path in
this development is ASCII). -/
def toLowerS (s : Str) : Str := s.map Char.toLower

/-! Facts about `pyReplace`, `collapseSlashes` and `canon` used by the
claims about the path canonicalizer. -/

theorem pyRepGo_nil (pat rep : Str) (k : Nat) : pyRepGo pat rep [] k = [] := rfl

theorem pyRepGo_skip (pat rep : Str) (a : Char) (rest : Str) (k : Nat) :
    pyRepGo pat rep (a :: rest) (k + 1) = pyRepGo pat rep rest k := rfl

theorem pyRepGo_zero (pat rep : Str) (a : Char) (rest : Str) :
    pyRepGo pat rep (a :: rest) 0 =
      if pat ≠ [] ∧ hasPfxL pat (a :: rest) = true then
        rep ++ pyRepGo pat rep rest (pat.length - 1)
      else a :: pyRepGo pat rep rest 0 := rfl

theorem mem_pyRepGo (pat rep : Str) :
    ∀ (s : Str) (k : Nat) (c : Char), c ∈ pyRepGo pat rep s k → c ∈ s ∨ c ∈ rep := by
  intro s
  induction s with
  | nil => intro k c h; simp [pyRepGo_nil] at h
  | cons a rest ih =>
    intro k c h
    cases k with
    | succ k0 =>
      rw [pyRepGo_skip] at h
      rcases ih k0 c h with h1 | h2
      · exact Or.inl (List.mem_cons_of_mem _ h1)
      · exact Or.inr h2
    | zero =>
      rw [pyRepGo_zero] at h
      by_cases hc : pat ≠ [] ∧ hasPfxL pat (a :: rest) = true
      · rw [if_pos hc] at h
        rcases List.mem_append.mp h with h1 | h2
        · exact Or.inr h1
        · rcases ih _ c h2 with h3 | h4
          · exact Or.inl (List.mem_cons_of_mem _ h3)
          · exact Or.inr h4
      · rw [if_neg hc] at h
        rcases List.mem_cons.mp h with h1 | h2
        · exact Or.inl (h1 ▸ List.mem_cons_self _ _)
        · rcases ih _ c h2 with h3 | h4
          · exact Or.inl (List.mem_cons_of_mem _ h3)
          · exact Or.inr h4

theorem pyRepGo_id_of_not_contains (pat rep : Str) :
    ∀ s : Str, containsSub s pat = false → pyRepGo pat rep s 0 = s := by
  intro s
  induction s with
  | nil => intro _; rfl
  | cons a rest ih =>
    intro h
    simp only [containsSub, Bool.or_eq_false_iff] at h
    rw [pyRepGo_zero, if_neg (by simp [h.1]), ih h.2]

theorem pyReplace_id_of_not_contains {s pat : Str} (rep : Str)
    (h : containsSub s pat = false) : pyReplace s pat rep = s :=
  pyRepGo_id_of_not_contains pat rep s h

theorem not_contains_single {a : Char} :
    ∀ {s : Str}, a ∉ s → containsSub s [a] = false := by
  intro s
  induction s with
  | nil => intro _; rfl
  | cons c rest ih =>
    intro h
    have h1 : a ≠ c := fun he => h (he ▸ List.mem_cons_self _ _)
    have h2 : a ∉ rest := fun hm => h (List.mem_cons_of_mem _ hm)
    simp [containsSub, hasPfxL, h1, ih h2]

theorem no_bs_pyRepGo : ∀ s : Str, '\\' ∉ pyRepGo bsL slashL s 0 := by
  intro s
  induction s with
  | nil => simp [pyRepGo_nil]
  | cons c rest ih =>
    by_cases hc : c = '\\'
    · subst hc
      rw [pyRepGo_zero, if_pos (by simp [bsL, hasPfxL])]
      intro h
      rcases List.mem_append.mp h with h1 | h2
      · simp [slashL] at h1
      · exact ih (by simpa [bsL] using h2)
    · rw [pyRepGo_zero, if_neg ?hneg]
      case hneg =>
        intro hcon
        have : ('\\' : Char) = c := by simpa [bsL, hasPfxL] using hcon.2
        exact hc this.symm
      intro h
      rcases List.mem_cons.mp h with h1 | h2
      · exact hc h1.symm
      · exact ih h2

theorem pyRepGo_dslash_len_le : ∀ (s : Str) (k : Nat),
    (pyRepGo dslashL slashL s k).length ≤ s.length := by
  intro s
  induction s with
  | nil => intro k; simp [pyRepGo_nil]
  | cons a rest ih =>
    intro k
    cases k with
    | succ k0 =>
      rw [pyRepGo_skip]
      exact Nat.le_succ_of_le (ih k0)
    | zero =>
      rw [pyRepGo_zero]
      by_cases hc : dslashL ≠ [] ∧ hasPfxL dslashL (a :: rest) = true
      · rw [if_pos hc]
        have h1 := ih (dslashL.length - 1)
        have h2 : slashL.length = 1 := rfl
        simp only [List.length_append, List.length_cons]
        omega
      · rw [if_neg hc]
        simp only [List.length_cons]
        exact Nat.succ_le_succ (ih 0)

theorem pyReplace_dslash_len_lt : ∀ s : Str, containsSub s dslashL = true →
    (pyReplace s dslashL slashL).length < s.length := by
  intro s
  induction s with
  | nil => intro h; simp [containsSub, hasPfxL, dslashL] at h
  | cons a rest ih =>
    intro h
    simp only [containsSub, Bool.or_eq_true] at h
    by_cases hp : hasPfxL dslashL (a :: rest) = true
    · cases rest with
      | nil => simp [dslashL, hasPfxL] at hp
      | cons b t =>
        show (pyRepGo dslashL slashL (a :: b :: t) 0).length < (a :: b :: t).length
        rw [pyRepGo_zero, if_pos ⟨by simp [dslashL], hp⟩]
        have h2 : pyRepGo dslashL slashL (b :: t) (dslashL.length - 1)
            = pyRepGo dslashL slashL t 0 := rfl
        rw [h2]
        have h3 := pyRepGo_dslash_len_le t 0
        have h4 : slashL.length = 1 := rfl
        simp only [List.length_append, List.length_cons]
        omega
    · have hrest : containsSub rest dslashL = true := by
        rcases h with h1 | h2
        · exact absurd h1 hp
        · exact h2
      show (pyRepGo dslashL slashL (a :: rest) 0).length < (a :: rest).length
      rw [pyRepGo_zero, if_neg (by intro hcon; exact hp hcon.2)]
      simp only [List.length_cons]
      exact Nat.succ_lt_succ (ih hrest)

theorem collapseF_no_dslash : ∀ (n : Nat) (s : Str), s.length ≤ n →
    containsSub (collapseF n s) dslashL = false := by
  intro n
  induction n with
  | zero =>
    intro s hs
    have : s = [] := List.eq_nil_of_length_eq_zero (Nat.le_zero.mp hs)
    subst this
    rfl
  | succ n0 ih =>
    intro s hs
    by_cases hc : containsSub s dslashL = true
    · have hlt := pyReplace_dslash_len_lt s hc
      simp only [collapseF, if_pos hc]
      exact ih _ (by omega)
    · simp only [collapseF]
      rw [if_neg hc]
      simpa using hc

theorem collapseSlashes_no_dslash (s : Str) :
    containsSub (collapseSlashes s) dslashL = false :=
  collapseF_no_dslash (s.length + 1) s (Nat.le_succ _)

theorem collapseF_id_of_not_contains (n : Nat) {s : Str}
    (h : containsSub s dslashL = false) : collapseF n s = s := by
  cases n with
  | zero => rfl
  | succ n0 => simp [collapseF, h]

theorem mem_collapseF : ∀ (n : Nat) (s : Str) (c : Char),
    c ∈ collapseF n s → c ∈ s ∨ c = '/' := by
  intro n
  induction n with
  | zero => intro s c h; exact Or.inl h
  | succ n0 ih =>
    intro s c h
    simp only [collapseF] at h
    by_cases hc : containsSub s dslashL = true
    · rw [if_pos hc] at h
      rcases ih _ c h with h1 | h2
      · rcases mem_pyRepGo _ _ _ _ _ h1 with h3 | h4
        · exact Or.inl h3
        · simp [slashL] at h4; exact Or.inr h4
      · exact Or.inr h2
    · rw [if_neg hc] at h
      exact Or.inl h

theorem mem_canon {x : Str} {c : Char} (h : c ∈ canon x) : c ∈ x ∨ c = '/' := by
  simp only [canon, collapseSlashes] at h
  rcases mem_collapseF _ _ _ h with h1 | h2
  · rcases mem_pyRepGo _ _ _ _ _ h1 with h2 | h3
    · by_cases hd : hasPfxL dotSlashL (pyReplace x bsL slashL) = true
      · rw [if_pos hd] at h2
        have h4 := List.drop_subset 2 (pyReplace x bsL slashL) h2
        rcases mem_pyRepGo _ _ _ _ _ h4 with h5 | h6
        · exact Or.inl h5
        · simp [slashL] at h6; exact Or.inr h6
      · rw [if_neg hd] at h2
        rcases mem_pyRepGo _ _ _ _ _ h2 with h5 | h6
        · exact Or.inl h5
        · simp [slashL] at h6; exact Or.inr h6
    · simp [slashL] at h3; exact Or.inr h3
  · exact Or.inr h2

theorem canon_no_bs (x : Str) : '\\' ∉ canon x := by
  intro h
  simp only [canon, collapseSlashes] at h
  rcases mem_collapseF _ _ _ h with h1 | h2
  · rcases mem_pyRepGo _ _ _ _ _ h1 with h2 | h3
    · by_cases hd : hasPfxL dotSlashL (pyReplace x bsL slashL) = true
      · rw [if_pos hd] at h2
        exact no_bs_pyRepGo x (List.drop_subset 2 _ h2)
      · rw [if_neg hd] at h2
        exact no_bs_pyRepGo x h2
    · simp [slashL] at h3
  · simp at h2

theorem canon_no_dslash (x : Str) : containsSub (canon x) dslashL = false := by
  simp only [canon]
  exact collapseSlashes_no_dslash _


/-- Split a string at `'/'` characters (used only by the spec-side
canonical form below). -/
def splitSlash (s : Str) : List Str :=
  s.foldr
    (fun c acc =>
      if c = '/' then [] :: acc
      else
        match acc with
        | [] => [[c]]
        | a :: as => (c :: a) :: as)
    [[]]

/-- Join segments with `'/'`. -/
def joinSlash (l : List Str) : Str := List.intercalate slashL l

/-- The canonical relative form exactly as the specification words it in
section 4.1 (this definition follows the spec, not the source, and is
used only to compare the two): backslashes to `'/'`, a single leading
`"./"` stripped, repeated `'/'` collapsed and `'.'` segments elided
(both obtained here by dropping empty and `"."` segments), `".."`
segments resolved by popping the parent, and the result lower-cased on
Windows bundles. -/
def canonSpecC4 (windows : Bool) (p : Str) : Str :=
  let q := p.map (fun c => if c = '\\' then '/' else c)
  let q2 := if hasPfxL dotSlashL q then q.drop 2 else q
  let segs := splitSlash q2
  let kept := segs.foldl
    (fun acc seg =>
      if seg = [] ∨ seg = ['.'] then acc
      else if seg = ['.', '.'] then acc.dropLast
      else acc ++ [seg])
    ([] : List Str)
  let joined := joinSlash kept
  if windows then toLowerS joined else joined

example : canonSpecC4 false (chars "a/../b.sh") = chars "b.sh" := by decide
example : canonSpecC4 false (chars "./x//./y.sh") = chars "x/y.sh" := by decide

/-- Model of `pathlib.Path.relative_to` as used by `exporter._canon_rel`
on an absolute POSIX path: exact root gives `"."`, a path under the root
loses the root prefix, anything else raises — the caller's bare `except`
keeps the string unchanged, so the failure case is the identity here. -/
def relToRoot (root s : Str) : Str :=
  if s = root then ['.']
  else if hasPfxL (root ++ slashL) s then s.drop (root.length + 1)
  else s

/-- Embedding of `exporter._canon_rel`: `(p or "").strip()`, backslashes
to `'/'`, one leading `"./"` stripped, absolute paths (leading `'/'` in
the POSIX model) relativized against the resolved bundle root via
`relToRoot`, and the result lower-cased exactly when the bundle's
`meta.json` declares `platform=windows`. -/
def canonRelE (root : Str) (windows : Bool) (p : Str) : Str :=
  let s1 := pyReplace (pyStripWs p) bsL slashL
  let s2 := if hasPfxL dotSlashL s1 then s1.drop 2 else s1
  let s3 := if hasPfxL slashL s2 then relToRoot root s2 else s2
  if windows then toLowerS s3 else s3

/-- Claim C4, counterexample: `utils.canon` does not resolve `".."`
segments by popping the parent, so it differs from the spec's canonical
relative form already at `"a/../b.sh"` (the code returns the string
unchanged, the spec form is `"b.sh"`). -/
theorem c4_counterexample :
    canon (chars "a/../b.sh") ≠ canonSpecC4 false (chars "a/../b.sh") := by
  decide

/-- Claim C4, amended: `canon` converts backslashes to `'/'` (no
backslash survives), strips a single leading `"./"`, removes `"/./"`
occurrences in one left-to-right pass and fully collapses `"//"` (no
`"//"` survives); it emits no character that was not in the input other
than `'/'` — in particular it never lower-cases — and it leaves `".."`
segments unresolved (witnessed by `"a/../b.sh"`).  The Windows
lower-casing belongs to the exporter's `_canon_rel`, which lower-cases
its result exactly when the bundle is Windows. -/
theorem c4_amended (x : Str) (c : Char) (root s : Str) :
    (c ∈ canon x → c ∈ x ∨ c = '/') ∧
    ('\\' ∈ canon x → False) ∧
    containsSub (canon x) dslashL = false ∧
    canon (chars "a/../b.sh") = chars "a/../b.sh" ∧
    canonRelE root true s = toLowerS (canonRelE root false s) :=
  ⟨fun h => mem_canon h, fun h => canon_no_bs x h, canon_no_dslash x, by decide, rfl⟩

/-- Witness for the amended claim C4 at a concrete input. -/
theorem c4_amended_witness : 'A' ∈ chars "A\\b.sh" ∨ 'A' = '/' :=
  (c4_amended (chars "A\\b.sh") 'A' [] []).1 (by decide)

/-- Claim C5, counterexample: `canon` is not idempotent.  On
`"././x"` the `^`-anchored `re.sub` strips only one `"./"`, so
`canon "././x" = "./x"` while `canon "./x" = "x"`. -/
theorem c5_counterexample :
    canon (canon (chars "././x")) ≠ canon (chars "././x") := by
  decide

/-- Claim C5, amended: `canon` is idempotent on every input whose image
does not retain a leading `"./"` and does not retain a `"/./"`
occurrence (the two residues the single-strip and the single-pass
replacement can leave behind). -/
theorem c5_amended (x : Str) (h1 : hasPfxL dotSlashL (canon x) = false)
    (h2 : containsSub (canon x) slashDotSlashL = false) :
    canon (canon x) = canon x := by
  have hbs : containsSub (canon x) bsL = false := not_contains_single (canon_no_bs x)
  have e1 : pyReplace (canon x) bsL slashL = canon x :=
    pyReplace_id_of_not_contains _ hbs
  have e3 : pyReplace (canon x) slashDotSlashL slashL = canon x :=
    pyReplace_id_of_not_contains _ h2
  have e4 : collapseSlashes (canon x) = canon x := by
    unfold collapseSlashes
    exact collapseF_id_of_not_contains _ (canon_no_dslash x)
  show collapseSlashes (pyReplace
    (if hasPfxL dotSlashL (pyReplace (canon x) bsL slashL) = true then
      (pyReplace (canon x) bsL slashL).drop 2
    else pyReplace (canon x) bsL slashL) slashDotSlashL slashL) = canon x
  rw [e1, if_neg (by simp [h1]), e3, e4]

/-- Witness for the amended claim C5 at a concrete input. -/
theorem c5_amended_witness :
    hasPfxL dotSlashL (canon (chars "./a//b.sh")) = false ∧
    containsSub (canon (chars "./a//b.sh")) slashDotSlashL = false ∧
    canon (canon (chars "./a//b.sh")) = canon (chars "./a//b.sh") :=
  ⟨by decide, by decide, c5_amended _ (by decide) (by decide)⟩

/-- Embedding of `agents._norm_path`:
`(p or "").strip().strip('"').strip("'").replace("\\", "/")`, one
leading `"./"` stripped, and the `while "//" in p` collapsing loop. -/
def normPath (p : Str) : Str :=
  let a := pyStripChar '\'' (pyStripChar '"' (pyStripWs p))
  let b := pyReplace a bsL slashL
  let c := if hasPfxL dotSlashL b then b.drop 2 else b
  collapseSlashes c

example : normPath (chars " \"./x//y.sh\" ") = chars "x/y.sh" := by decide

/-- Case-insensitive prefix test (ASCII), the matching discipline of
`re.sub(..., flags=re.I)` on an escaped literal pattern. -/
def hasPfxCI : Str → Str → Bool
  | [], _ => true
  | _ :: _, [] => false
  | p :: ps, c :: cs => p.toLower = c.toLower && hasPfxCI ps cs

/-- Case-insensitive variant of the `pyRepGo` replacement scanner. -/
def pyRepGoCI (pat rep : Str) : Str → Nat → Str
  | [], _ => []
  | c :: rest, skip =>
    match skip with
    | k + 1 => pyRepGoCI pat rep rest k
    | 0 =>
      if pat ≠ [] ∧ hasPfxCI pat (c :: rest) then
        rep ++ pyRepGoCI pat rep rest (pat.length - 1)
      else
        c :: pyRepGoCI pat rep rest 0

/-- Model of `re.sub(re.escape(pat), rep, s, flags=re.I)`: replace every
case-insensitive occurrence of the literal `pat`, left to right. -/
def pyReplaceCI (s pat rep : Str) : Str := pyRepGoCI pat rep s 0

/-- Model of `(v or "").strip().strip('"').strip("'")`, the value
clean-up applied both to the raw target and to every substituted value
inside `Mapper._subst`. -/
def cleanVal (v : Str) : Str := pyStripChar '\'' (pyStripChar '"' (pyStripWs v))

/-- One `for k, v in env.items()` iteration of a `Mapper._subst` pass:
replace `%K%` and `!K!` case-insensitively, then the literals `${K}` and
`$K`, by the cleaned value. -/
def substVar (out : Str) (kv : Str × Str) : Str :=
  let k := kv.1
  let vv := cleanVal kv.2
  let o1 := pyReplaceCI out ('%' :: (k ++ ['%'])) vv
  let o2 := pyReplaceCI o1 ('!' :: (k ++ ['!'])) vv
  let o3 := pyReplace o2 ('$' :: '{' :: (k ++ ['}'])) vv
  pyReplace o3 ('$' :: k) vv

/-- One full pass of `Mapper._subst` over the environment, in the
dictionary's iteration (insertion) order. -/
def substStep (env : List (Str × Str)) (s : Str) : Str := env.foldl substVar s

/-- The `for _ in range(5)` loop of `Mapper._subst`: apply the pass,
stop early when a pass leaves the string unchanged, at most `n` passes. -/
def substLoopF (env : List (Str × Str)) : Nat → Str → Str
  | 0, s => s
  | n + 1, s =>
    let t := substStep env s
    if t = s then s else substLoopF env n t

/-- Plain iteration of the substitution pass, without the early exit. -/
def iterStepN (env : List (Str × Str)) : Nat → Str → Str
  | 0, s => s
  | n + 1, s => iterStepN env n (substStep env s)

/-- Embedding of `Mapper._subst`: clean the raw string, run up to five
passes to an (attempted) fixed point, then `_norm_path` the result. -/
def substPy (env : List (Str × Str)) (s : Str) : Str :=
  normPath (substLoopF env 5 (cleanVal s))

theorem substLoopF_fix (env : List (Str × Str)) :
    ∀ (n : Nat) (s : Str),
      substStep env (substLoopF env n s) = substLoopF env n s ∨
      substLoopF env n s = iterStepN env n s := by
  intro n
  induction n with
  | zero => intro s; exact Or.inr rfl
  | succ n0 ih =>
    intro s
    by_cases h : substStep env s = s
    · simp only [substLoopF, if_pos h]
      exact Or.inl h
    · simp only [substLoopF, if_neg h]
      rcases ih (substStep env s) with h1 | h2
      · exact Or.inl h1
      · exact Or.inr (by simp only [iterStepN]; exact h2)

/-- The six-variable chain environment used to refute claim C7: each
pass of the substitution resolves exactly one link. -/
def c7Env : List (Str × Str) :=
  [ (chars "V1", chars "done"), (chars "V2", chars "$V1"),
    (chars "V3", chars "$V2"), (chars "V4", chars "$V3"),
    (chars "V5", chars "$V4"), (chars "V6", chars "$V5") ]

/-- Claim C7, counterexample: with the chain environment `c7Env` and the
raw target `"$V6"`, each of the five passes of `Mapper._subst` resolves
one link, the loop exhausts its five passes at `"$V1"`, and applying the
substitution step once more to the returned value changes it to
`"done"` — the returned value is not a fixed point of the step. -/
theorem c7_counterexample :
    substStep c7Env (substPy c7Env (chars "$V6")) ≠ substPy c7Env (chars "$V6") := by
  decide

/-- Claim C7, amended: `Mapper._subst` performs at most five passes,
stopping early as soon as a pass leaves the string unchanged; the value
it then normalizes is a fixed point of the substitution step whenever
the loop stabilized within its five passes, and otherwise it is the
fifth plain iterate, which need not be a fixed point. -/
theorem c7_amended (env : List (Str × Str)) (s : Str) :
    substPy env s = normPath (substLoopF env 5 (cleanVal s)) ∧
    (substStep env (substLoopF env 5 (cleanVal s)) = substLoopF env 5 (cleanVal s) ∨
      substLoopF env 5 (cleanVal s) = iterStepN env 5 (cleanVal s)) :=
  ⟨rfl, substLoopF_fix env 5 (cleanVal s)⟩

/-- Decimal digit test for the model of CPython `int(str)`. -/
def isDigitC (c : Char) : Bool := '0' ≤ c && c ≤ '9'

/-- Numeric value of a decimal digit character. -/
def digitVal (c : Char) : Nat := c.toNat - '0'.toNat

/-- Digits with single underscores allowed between digits, after the
first digit has been consumed (CPython's decimal literal grammar). -/
def parseDigitsGo : Str → Nat → Option Nat
  | [], acc => some acc
  | '_' :: rest, acc =>
    match rest with
    | c :: rest2 => if isDigitC c then parseDigitsGo rest2 (acc * 10 + digitVal c) else none
    | [] => none
  | c :: rest, acc => if isDigitC c then parseDigitsGo rest (acc * 10 + digitVal c) else none

/-- Digit-string parser: at least one digit, then `parseDigitsGo`. -/
def pyIntDigits : Str → Option Nat
  | [] => none
  | c :: rest => if isDigitC c then parseDigitsGo rest (digitVal c) else none

/-- Model of CPython `int(str)`: optional surrounding whitespace, an
optional sign, then decimal digits with single underscores between
digits.  Any other string raises `ValueError`, which `_env_int`'s bare
`except` turns into the default, so it is modelled as `none`.  (Unicode
digits and exotic whitespace are outside this ASCII model.) -/
def pyInt (v : Str) : Option Int :=
  let t := pyStripWs v
  match t with
  | '+' :: rest => (pyIntDigits rest).map (fun n => (n : Int))
  | '-' :: rest => (pyIntDigits rest).map (fun n => -(n : Int))
  | _ => (pyIntDigits t).map (fun n => (n : Int))

example : pyInt (chars " 42 ") = some 42 := by decide
example : pyInt (chars "-7") = some (-7) := by decide
example : pyInt (chars "1_0") = some 10 := by decide
example : pyInt (chars "4x") = none := by decide

/-- The process environment as a partial map from variable names to
string values. -/
abbrev EnvFn := Str → Option Str

/-- Embedding of `AgentRunner.run`'s local `_env_int`: the integer value
of the variable when it is set and non-blank and `int()` succeeds, and
the default otherwise (unset, blank, or `ValueError`). -/
def envInt (env : EnvFn) (name : Str) (d : Int) : Int :=
  match env name with
  | none => d
  | some v =>
    if pyStripWs v = [] then d
    else
      match pyInt v with
      | some k => k
      | none => d

/-- The budget envelope built at the top of `AgentRunner.run`. -/
structure Budget where
  maxToolCalls : Int
  maxLatencyMs : Int
  maxLoops : Int
  maxFiles : Int
deriving DecidableEq, Repr

/-- Embedding of the budget construction in `AgentRunner.run`: the four
fields come from the `SG_`-prefixed environment variables with defaults
100, 60000, 1 and 60. -/
def budgetCode (env : EnvFn) : Budget :=
  { maxToolCalls := envInt env (chars "SG_MAX_TOOL_CALLS") 100
    maxLatencyMs := envInt env (chars "SG_MAX_LAT_MS") 60000
    maxLoops := envInt env (chars "SG_MAX_LOOPS") 1
    maxFiles := envInt env (chars "SG_MAX_FILES") 60 }

/-- The budget envelope as claim C9 words it (this definition follows
the claim, not the source, and exists only to compare the two): the
same construction but reading the unprefixed variable names
`MAX_TOOL_CALLS`, `MAX_LAT_MS`, `MAX_LOOPS`, `MAX_FILES`. -/
def budgetClaimC9 (env : EnvFn) : Budget :=
  { maxToolCalls := envInt env (chars "MAX_TOOL_CALLS") 100
    maxLatencyMs := envInt env (chars "MAX_LAT_MS") 60000
    maxLoops := envInt env (chars "MAX_LOOPS") 1
    maxFiles := envInt env (chars "MAX_FILES") 60 }

/-- Claim C9, counterexample: the orchestrator ignores an environment
that sets `MAX_TOOL_CALLS=7` — the code reads only the `SG_`-prefixed
names, so it keeps the default 100 where the claim demands 7. -/
theorem c9_counterexample :
    budgetCode (fun n => if n = chars "MAX_TOOL_CALLS" then some (chars "7") else none) ≠
    budgetClaimC9 (fun n => if n = chars "MAX_TOOL_CALLS" then some (chars "7") else none) := by
  decide

/-- Claim C9, amended: the budget envelope is taken from the
integer-valued environment variables named `SG_MAX_TOOL_CALLS`,
`SG_MAX_LAT_MS`, `SG_MAX_LOOPS` and `SG_MAX_FILES` when they are set
(non-blank and parseable as an integer), and from the defaults
(100 tool calls, 60000 ms, 1 loop, 60 files) when they are unset. -/
theorem c9_amended (env : EnvFn) :
    ((env (chars "SG_MAX_TOOL_CALLS") = none → (budgetCode env).maxToolCalls = 100) ∧
      (∀ v k, env (chars "SG_MAX_TOOL_CALLS") = some v → pyStripWs v ≠ [] →
        pyInt v = some k → (budgetCode env).maxToolCalls = k)) ∧
    ((env (chars "SG_MAX_LAT_MS") = none → (budgetCode env).maxLatencyMs = 60000) ∧
      (∀ v k, env (chars "SG_MAX_LAT_MS") = some v → pyStripWs v ≠ [] →
        pyInt v = some k → (budgetCode env).maxLatencyMs = k)) ∧
    ((env (chars "SG_MAX_LOOPS") = none → (budgetCode env).maxLoops = 1) ∧
      (∀ v k, env (chars "SG_MAX_LOOPS") = some v → pyStripWs v ≠ [] →
        pyInt v = some k → (budgetCode env).maxLoops = k)) ∧
    ((env (chars "SG_MAX_FILES") = none → (budgetCode env).maxFiles = 60) ∧
      (∀ v k, env (chars "SG_MAX_FILES") = some v → pyStripWs v ≠ [] →
        pyInt v = some k → (budgetCode env).maxFiles = k)) := by
  refine ⟨⟨?_, ?_⟩, ⟨?_, ?_⟩, ⟨?_, ?_⟩, ⟨?_, ?_⟩⟩ <;>
    first
      | (intro h; simp [budgetCode, envInt, h])
      | (intro v k hv hnb hp; simp [budgetCode, envInt, hv, hnb, hp])

/-- Witness for the amended claim C9: an environment setting
`SG_MAX_TOOL_CALLS=" 7 "` and nothing else yields 7 tool calls and the
default of 1 loop. -/
theorem c9_amended_witness :
    (budgetCode (fun n => if n = chars "SG_MAX_TOOL_CALLS" then some (chars " 7 ") else none)).maxToolCalls = 7 ∧
    (budgetCode (fun n => if n = chars "SG_MAX_TOOL_CALLS" then some (chars " 7 ") else none)).maxLoops = 1 :=
  ⟨(c9_amended _).1.2 (chars " 7 ") 7 (by decide) (by decide) (by decide),
    (c9_amended _).2.2.1.1 (by decide)⟩

/-- Embedding of the `Edge` dataclass of `graph.py`.  The `confidence`
float only ever carries exact decimal constants (0.9, 0.7, 0.5, 0.8), so
it is modelled as a rational. -/
structure EdgeM where
  src : Str
  dst : Str
  kind : Str
  command : Str
  dynamic : Bool := false
  resolved : Bool := true
  confidence : ℚ := mkRat 9 10
  reason : Option Str := none
deriving DecidableEq, Repr

/-- Embedding of the `Graph` dataclass of `graph.py`: an
insertion-ordered node-key map (the metadata values are always empty
dicts and carry no information) and an ordered edge list. -/
structure GraphM where
  nodes : List Str := []
  edges : List EdgeM := []
deriving DecidableEq, Repr

/-- Embedding of `Graph.add_node`: `self.nodes.setdefault(canon(path), {})`. -/
def GraphM.addNode (g : GraphM) (p : Str) : GraphM :=
  if canon p ∈ g.nodes then g else { g with nodes := g.nodes ++ [canon p] }

/-- Embedding of `Graph.add_edge`: canonicalize both endpoints of the
edge, append it, then `add_node` each (already canonicalized) endpoint —
which canonicalizes them a second time. -/
def GraphM.addEdge (g : GraphM) (e : EdgeM) : GraphM :=
  let e2 := { e with src := canon e.src, dst := canon e.dst }
  (({ g with edges := g.edges ++ [e2] } : GraphM).addNode e2.src).addNode e2.dst

/-- The empty graph. -/
def emptyG : GraphM := {}

/-- An `add_node` or `add_edge` call on a `Graph`. -/
inductive GOp
  | node (p : Str)
  | edge (e : EdgeM)
deriving DecidableEq

/-- Apply one graph operation. -/
def applyOp (g : GraphM) : GOp → GraphM
  | .node p => g.addNode p
  | .edge e => g.addEdge e

/-- Apply a sequence of graph operations to the empty graph. -/
def applyOps (ops : List GOp) : GraphM := ops.foldl applyOp emptyG

/-- The endpoints of an `add_edge` call are stable under a second
`canon`; always true for `add_node`. -/
def opEndpointsOk : GOp → Bool
  | .node _ => true
  | .edge e => canon (canon e.src) = canon e.src && canon (canon e.dst) = canon e.dst

theorem GraphM.mem_nodes_addNode {g : GraphM} {x : Str} (p : Str)
    (h : x ∈ g.nodes) : x ∈ (g.addNode p).nodes := by
  unfold GraphM.addNode
  by_cases hc : canon p ∈ g.nodes
  · rw [if_pos hc]; exact h
  · rw [if_neg hc]; exact List.mem_append_left _ h

theorem GraphM.addNode_adds (g : GraphM) (p : Str) :
    canon p ∈ (g.addNode p).nodes := by
  unfold GraphM.addNode
  by_cases hc : canon p ∈ g.nodes
  · rw [if_pos hc]; exact hc
  · rw [if_neg hc]; exact List.mem_append_right _ (List.mem_singleton.mpr rfl)

theorem GraphM.edges_addNode (g : GraphM) (p : Str) :
    (g.addNode p).edges = g.edges := by
  unfold GraphM.addNode
  by_cases hc : canon p ∈ g.nodes
  · rw [if_pos hc]
  · rw [if_neg hc]

/-- The endpoint invariant of claim C10. -/
def graphInv (g : GraphM) : Prop :=
  ∀ e ∈ g.edges, e.src ∈ g.nodes ∧ e.dst ∈ g.nodes

theorem graphInv_addNode {g : GraphM} (h : graphInv g) (p : Str) :
    graphInv (g.addNode p) := by
  intro e he
  rw [GraphM.edges_addNode] at he
  exact ⟨GraphM.mem_nodes_addNode p (h e he).1, GraphM.mem_nodes_addNode p (h e he).2⟩

theorem graphInv_addEdge {g : GraphM} (h : graphInv g) {e : EdgeM}
    (hok : opEndpointsOk (.edge e) = true) : graphInv (g.addEdge e) := by
  simp only [opEndpointsOk, Bool.and_eq_true, decide_eq_true_eq] at hok
  intro e' he'
  unfold GraphM.addEdge at he' ⊢
  rw [GraphM.edges_addNode, GraphM.edges_addNode] at he'
  simp only at he'
  rcases List.mem_append.mp he' with hold | hnew
  · rcases h e' hold with ⟨h1, h2⟩
    exact ⟨GraphM.mem_nodes_addNode _ (GraphM.mem_nodes_addNode _ h1),
      GraphM.mem_nodes_addNode _ (GraphM.mem_nodes_addNode _ h2)⟩
  · have he2 : e' = { e with src := canon e.src, dst := canon e.dst } :=
      List.mem_singleton.mp hnew
    subst he2
    constructor
    · have h1 := GraphM.addNode_adds
        ({ g with edges := g.edges ++ [{ e with src := canon e.src, dst := canon e.dst }] }) (canon e.src)
      have h2 := GraphM.mem_nodes_addNode (g := (({ g with edges := g.edges ++ [{ e with src := canon e.src, dst := canon e.dst }] } : GraphM).addNode (canon e.src))) (canon e.dst) (hok.1 ▸ h1)
      simpa using h2
    · have h1 := GraphM.addNode_adds
        ((({ g with edges := g.edges ++ [{ e with src := canon e.src, dst := canon e.dst }] } : GraphM).addNode (canon e.src))) (canon e.dst)
      simpa [hok.2] using h1

theorem graphInv_foldl : ∀ (ops : List GOp) (g : GraphM),
    graphInv g → (∀ op ∈ ops, opEndpointsOk op = true) →
    graphInv (ops.foldl applyOp g) := by
  intro ops
  induction ops with
  | nil => intro g hg _; exact hg
  | cons op rest ih =>
    intro g hg hok
    simp only [List.foldl_cons]
    refine ih _ ?_ (fun o ho => hok o (List.mem_cons_of_mem _ ho))
    cases op with
    | node p => exact graphInv_addNode hg p
    | edge e => exact graphInv_addEdge hg (hok _ (List.mem_cons_self _ _))

/-- The single `add_edge` call whose source endpoint refutes claim C10:
`canon "./././a.sh" = "./a.sh"` but the node key gets a second `canon`,
so the stored edge source `"./a.sh"` is not a key of the node map. -/
def c10Ops : List GOp :=
  [GOp.edge { src := chars "./././a.sh", dst := chars "b.sh",
              kind := chars "call", command := chars "" }]

/-- Claim C10, counterexample: after `add_edge("./././a.sh", "b.sh")` on
an empty graph, the edge list holds an edge whose `src` (`"./a.sh"`,
canonicalized once) is not a key of the node map (which holds
`"a.sh"`, canonicalized twice) — the endpoint invariant fails. -/
theorem c10_counterexample :
    ∃ e ∈ (applyOps c10Ops).edges, e.src ∉ (applyOps c10Ops).nodes := by
  decide

/-- Claim C10, amended: after any sequence of `add_node` and `add_edge`
operations on an initially empty graph in which every `add_edge`
endpoint is stable under a second `canon` (in particular, any endpoint
that is already canonical), every edge in the edge list has both its
`src` and its `dst` present as keys of the node map, at all times. -/
theorem c10_amended (ops : List GOp) (h : ∀ op ∈ ops, opEndpointsOk op = true) :
    ∀ e ∈ (applyOps ops).edges,
      e.src ∈ (applyOps ops).nodes ∧ e.dst ∈ (applyOps ops).nodes :=
  graphInv_foldl ops emptyG (fun _ he => absurd he (List.not_mem_nil _)) h

/-- The operation list used by the witness of amended claim C10. -/
def c10WOps : List GOp :=
  [GOp.edge { src := chars "a.sh", dst := chars "b.sh",
              kind := chars "call", command := chars "" }]

/-- Witness for the amended claim C10 at a concrete operation list. -/
theorem c10_amended_witness :
    (∀ op ∈ c10WOps, opEndpointsOk op = true) ∧
    ∀ e ∈ (applyOps c10WOps).edges,
      e.src ∈ (applyOps c10WOps).nodes ∧ e.dst ∈ (applyOps c10WOps).nodes :=
  ⟨by decide, c10_amended _ (by decide)⟩

/-- Line scanner for the model of Python `str.splitlines()`:
terminators `"\r\n"`, `"\n"`, `"\r"`, no trailing empty line. -/
def splitLinesGo : Str → Str → List Str
  | [], acc => [acc.reverse]
  | '\r' :: '\n' :: rest, acc =>
    acc.reverse :: (if rest.isEmpty then [] else splitLinesGo rest [])
  | '\n' :: rest, acc =>
    acc.reverse :: (if rest.isEmpty then [] else splitLinesGo rest [])
  | '\r' :: rest, acc =>
    acc.reverse :: (if rest.isEmpty then [] else splitLinesGo rest [])
  | c :: rest, acc => splitLinesGo rest (c :: acc)

/-- Model of Python `str.splitlines()` (restricted to the ASCII line
terminators; the exotic Unicode terminators do not occur in scripts). -/
def pySplitLines (s : Str) : List Str := if s.isEmpty then [] else splitLinesGo s []

example : pySplitLines (chars "a\nb\n") = [chars "a", chars "b"] := by decide
example : pySplitLines (chars "") = [] := by decide

/-- Embedding of `utils.strip_comments` / `COMMENT_RE`: a line whose
first non-whitespace characters are `#` or `//` is replaced by the empty
string (the regex match spans the whole line), anything else is kept. -/
def stripCommentsL (line : Str) : Str :=
  let t := line.dropWhile isPyWs
  if hasPfxL (chars "#") t || hasPfxL (chars "//") t then [] else line

/-- First character of a regex `[A-Za-z_]` name. -/
def isNameStart (c : Char) : Bool :=
  ('A' ≤ c && c ≤ 'Z') || ('a' ≤ c && c ≤ 'z') || c = '_'

/-- Regex word character `\w` = `[A-Za-z0-9_]`. -/
def isNameC (c : Char) : Bool := isNameStart c || isDigitC c

/-- Search for `shell.VAR_HINT` = `\$\{?([A-Za-z_][A-Za-z0-9_]*)\}?`:
a `$`, an optional `{`, then a name-start character somewhere in the
string. -/
def varHintFound : Str → Bool
  | [] => false
  | '$' :: rest =>
    (match rest with
      | '{' :: c :: _ => isNameStart c
      | c :: _ => isNameStart c
      | [] => false)
    || varHintFound rest
  | _ :: rest => varHintFound rest

/-- Word-boundary search for the keyword `eval` (`\beval\b`), the
reading claim C8 gives of the shell parser's dynamic test (this
definition follows the claim's words, for comparison with the code's
substring test). -/
def kwEvalGo : Option Char → Str → Bool
  | _, [] => false
  | prev, s@(c :: rest) =>
    (hasPfxL (chars "eval") s
      && (match prev with | none => true | some p => !isNameC p)
      && (match s.drop 4 with | [] => true | d :: _ => !isNameC d))
    || kwEvalGo (some c) rest

/-- Whether a line contains the keyword `eval` with word boundaries. -/
def kwEvalFound (s : Str) : Bool := kwEvalGo none s

/-- The shell parser's dynamic test as the code writes it:
`VAR_HINT.search(line)` or a backtick or `"$("` or the substring
`"eval"`. -/
def shellDynL (line : Str) : Bool :=
  varHintFound line || containsSub line ['`'] || containsSub line (chars "$(")
    || containsSub line (chars "eval")

/-- The dynamic test as claim C8 words it: the same three markers but
the *keyword* `eval` instead of the substring (this definition follows
the claim's words, for comparison with the code). -/
def shellDynClaimC8 (line : Str) : Bool :=
  varHintFound line || containsSub line ['`'] || containsSub line (chars "$(")
    || kwEvalFound line

/-- Regex path-character class of path characters (word characters, dot, slash, hyphen). -/
def isPathC (c : Char) : Bool := isNameC c || c = '.' || c = '/' || c = '-'

/-- Quote characters of the optional `["']` groups in `CALL_RE`. -/
def isQuoteC (c : Char) : Bool := c = '"' || c = '\''

/-- Try a list of literal alternatives in regex order; on the first that
is a prefix of `s`, return the remainder. -/
def matchLitAlt : List Str → Str → Option Str
  | [], _ => none
  | e :: es, s => if hasPfxL e s then some (s.drop e.length) else matchLitAlt es s

/-- The shell-extension alternation `(?:sh|bash|ksh)` of `CALL_RE`, in
the regex's order. -/
def shellExtsRE : List Str := [chars "sh", chars "bash", chars "ksh"]

/-- Greedy-with-backtracking matcher for a path-character run followed by a literal dot and an extension alternative: try the
longest run of path characters first, shrinking until the literal dot
and one of the extension alternatives follow; returns the remainder
after the extension. -/
def bodyExtGo (alts : List Str) (s : Str) : Nat → Option Str
  | 0 => none
  | n + 1 =>
    (match s.drop (n + 1) with
      | '.' :: rest2 => matchLitAlt alts rest2
      | _ => none).orElse
      (fun _ => bodyExtGo alts s n)

/-- Matcher for a path-character run followed by a literal dot and an extension alternative at the head of `s`. -/
def matchBodyExt (alts : List Str) (s : Str) : Option Str :=
  bodyExtGo alts s (s.takeWhile isPathC).length

/-- Matcher for the optional variable prefix
`\$\{?[A-Za-z_][A-Za-z0-9_]*\}?/` of `CALL_RE`'s quoted-path groups. -/
def matchVarPfx : Str → Option Str
  | '$' :: '{' :: c :: rest =>
    if isNameStart c then
      match rest.dropWhile isNameC with
      | '}' :: '/' :: r => some r
      | '/' :: r => some r
      | _ => none
    else none
  | '$' :: c :: rest =>
    if isNameStart c then
      match rest.dropWhile isNameC with
      | '}' :: '/' :: r => some r
      | '/' :: r => some r
      | _ => none
    else none
  | _ => none

/-- Core of a `CALL_RE` path group after the optional opening quote:
the optional prefix (variable prefix for the interpreter/source groups,
`"./"` for the direct group), preferred when it matches, then
the path-character run with its dot-extension. -/
def corePath (allowVar : Bool) (t : Str) : Option Str :=
  let pfxRes : Option Str :=
    if allowVar then matchVarPfx t
    else
      match t with
      | '.' :: '/' :: r => some r
      | _ => none
  match pfxRes with
  | some r => (matchBodyExt shellExtsRE r).orElse (fun _ => matchBodyExt shellExtsRE t)
  | none => matchBodyExt shellExtsRE t

/-- A full `CALL_RE` path group at the head of `s`:
`["']?` (greedy, with fallback), the core, `["']?` (greedy).  Returns
the captured group and the remainder after the match. -/
def matchPathAt (allowVar : Bool) (s : Str) : Option (Str × Str) :=
  let afterCoreQ : Str → Option Str := fun t =>
    (corePath allowVar t).map (fun r =>
      match r with
      | c :: r2 => if isQuoteC c then r2 else c :: r2
      | [] => [])
  let res : Option Str :=
    match s with
    | c :: t => if isQuoteC c then (afterCoreQ t).orElse (fun _ => afterCoreQ s) else afterCoreQ s
    | [] => none
  res.map (fun rem => (s.take (s.length - rem.length), rem))

/-- Python `\s` character class (ASCII part). -/
def isSpaceRe (c : Char) : Bool := isPyWs c

/-- Greedy `\s+`. -/
def wsPlus (s : Str) : Option Str :=
  match s with
  | c :: r => if isSpaceRe c then some (r.dropWhile isSpaceRe) else none
  | [] => none

/-- `CALL_RE` tried at one position: the three alternatives in the
regex's order — `(bash|sh|ksh)\s+path`, `(\.|source)\s+path`, direct
path.  Returns the captured path group and the remainder after the
whole match. -/
def callREAt (s : Str) : Option (Str × Str) :=
  (((matchLitAlt [chars "bash", chars "sh", chars "ksh"] s).bind
      (fun r => (wsPlus r).bind (matchPathAt true))).orElse
    (fun _ =>
      (match s with
        | '.' :: r => (wsPlus r).bind (matchPathAt true)
        | _ => none).orElse
        (fun _ =>
          if hasPfxL (chars "source") s then
            (wsPlus (s.drop 6)).bind (matchPathAt true)
          else none))).orElse
    (fun _ => matchPathAt false s)

/-- The `CALL_RE.finditer` scan: try a match at each position, left to
right, resuming after the end of each match (fuelled by the string
length; every match consumes at least one character). -/
def destGo : Nat → Str → List Str
  | 0, _ => []
  | _, [] => []
  | fuel + 1, s@(_ :: rest) =>
    match callREAt s with
    | some (g, rem) => g :: destGo fuel rem
    | none => destGo fuel rest

/-- All `CALL_RE` matches of a command line, in scan order. -/
def destinationsRaw (cmd : Str) : List Str := destGo (cmd.length + 1) cmd

/-- Last character test. -/
def hasSfx (p : Str) (c : Char) : Bool :=
  match p.getLast? with
  | some d => d = c
  | none => false

/-- The post-filter of `shell._destinations`: skip a group whose first
`/`-component contains `=` (the in-assignment guard), then strip one
pair of matching surrounding quotes. -/
def destFilter (p : Str) : Option Str :=
  if containsSub (p.takeWhile (fun c => c ≠ '/')) (chars "=") then none
  else if (hasPfxL (chars "'") p && hasSfx p '\'') || (hasPfxL (chars "\"") p && hasSfx p '"') then
    some (p.drop 1).dropLast
  else some p

/-- Embedding of `shell._destinations`. -/
def destinationsL (cmd : Str) : List Str := (destinationsRaw cmd).filterMap destFilter

example : destinationsL (chars "bash a.sh $X") = [chars "a.sh"] := by decide
example : destinationsL (chars ". \"${UTILS}/lib.sh\"") = [chars "${UTILS}/lib.sh"] := by decide
example : destinationsL (chars "./medieval.sh") = [chars "./medieval.sh"] := by decide

/-- The kind test of `parse_shell`:
`line.lstrip().startswith((". ", "source "))`. -/
def shellKind (line : Str) : Str :=
  let t := line.dropWhile isPyWs
  if hasPfxL (chars ". ") t || hasPfxL (chars "source ") t then chars "source" else chars "call"

/-- Edges emitted by `parse_shell` for one raw line: strip comments,
skip blank lines, compute the dynamic flag and the kind once per line,
and emit one edge per destination with `resolved = not dynamic` and
confidence 0.9 (static) or 0.5 (dynamic). -/
def shellLineEdges (srcPath : Str) (raw : Str) : List EdgeM :=
  let line := stripCommentsL raw
  if pyStripWs line = [] then []
  else
    (destinationsL line).map (fun d =>
      { src := srcPath, dst := d, kind := shellKind line, command := line,
        dynamic := shellDynL line, resolved := !shellDynL line,
        confidence := if shellDynL line then mkRat 5 10 else mkRat 9 10 })

/-- Embedding of `parsers/shell.parse_shell` (the `root` argument of the
source function is unused by it and omitted). -/
def parseShell (srcPath : Str) (text : Str) : List EdgeM :=
  (pySplitLines text).flatMap (shellLineEdges srcPath)

/-- Claim C8, counterexample: on the line `"./medieval.sh"` the shell
parser emits an edge marked dynamic — the code tests for the substring
`"eval"`, which `"medieval"` contains — while the claim's condition
(a `$VAR`/`${VAR}` reference, a backtick, `"$("`, or the *keyword*
`eval`) is false for this line. -/
theorem c8_counterexample :
    ∃ e ∈ parseShell (chars "run.sh") (chars "./medieval.sh"),
      e.dynamic = true ∧ shellDynClaimC8 (stripCommentsL (chars "./medieval.sh")) = false := by
  decide

/-- Claim C8, amended: for every input line, the shell parser marks the
emitted edges dynamic if and only if the comment-stripped line contains
a `$VAR` or `${VAR}` reference, a backtick, the substring `"$("`, or the
substring `"eval"` (not only the keyword); `resolved` is the negation of
`dynamic`, and the edge's command is the comment-stripped line. -/
theorem c8_amended (srcPath text : Str) (e : EdgeM)
    (he : e ∈ parseShell srcPath text) :
    ∃ raw ∈ pySplitLines text,
      e.dynamic = shellDynL (stripCommentsL raw) ∧
      e.resolved = !e.dynamic ∧
      e.command = stripCommentsL raw := by
  rcases List.mem_flatMap.mp he with ⟨raw, hraw, hmem⟩
  refine ⟨raw, hraw, ?_⟩
  simp only [shellLineEdges] at hmem
  by_cases hempty : pyStripWs (stripCommentsL raw) = []
  · rw [if_pos hempty] at hmem
    exact absurd hmem (List.not_mem_nil _)
  · rw [if_neg hempty] at hmem
    rcases List.mem_map.mp hmem with ⟨d, _, hd⟩
    subst hd
    exact ⟨rfl, by simp, rfl⟩

/-- The edge used by the witness of amended claim C8. -/
def c8WEdge : EdgeM :=
  { src := chars "run.sh", dst := chars "a.sh", kind := chars "call",
    command := chars "bash a.sh $X", dynamic := true, resolved := false,
    confidence := mkRat 5 10 }

/-- Witness for the amended claim C8 at a concrete parse. -/
theorem c8_amended_witness :
    ∃ raw ∈ pySplitLines (chars "bash a.sh $X"),
      c8WEdge.dynamic = shellDynL (stripCommentsL raw) ∧
      c8WEdge.resolved = !c8WEdge.dynamic ∧
      c8WEdge.command = stripCommentsL raw :=
  c8_amended (chars "run.sh") (chars "bash a.sh $X") c8WEdge (by decide)

/-- Case-insensitive `matchLitAlt` (for the `re.I` extension alternation
of `DIRECT_CALL_RE`; the alternatives are pairwise non-prefix, so the
first that matches is the only one that can). -/
def matchLitAltCI : List Str → Str → Option Str
  | [], _ => none
  | e :: es, s => if hasPfxCI e s then some (s.drop e.length) else matchLitAltCI es s

/-- The extension alternation of `DIRECT_CALL_RE`, in the regex's order. -/
def directExts : List Str :=
  [chars "sh", chars "bash", chars "ksh", chars "bat", chars "cmd",
   chars "ps1", chars "pl", chars "py"]

/-- The tail test of `DIRECT_CALL_RE`: a whitespace character, or an
optional quote followed by the end of the string. -/
def directEndOk : Str → Bool
  | [] => true
  | c :: rest => isSpaceRe c || (isQuoteC c && rest.isEmpty)

/-- Backtracking body of `DIRECT_CALL_RE` after the optional prefix:
a run of path characters (longest first), a literal dot, one extension
alternative (case-insensitive), then the tail test. -/
def directBodyGo (s : Str) : Nat → Bool
  | 0 => false
  | n + 1 =>
    (match s.drop (n + 1) with
      | '.' :: r2 =>
        match matchLitAltCI directExts r2 with
        | some r3 => directEndOk r3
        | none => false
      | _ => false)
    || directBodyGo s n

/-- Body of `DIRECT_CALL_RE` at the head of `s`. -/
def directBody (s : Str) : Bool := directBodyGo s (s.takeWhile isPathC).length

/-- The candidate remainders after `DIRECT_CALL_RE`'s optional prefix
alternation (dot-slash, then any-any-slash — the regex spells `../` with
unescaped dots — then slash, then no prefix), in the regex's preference
order; since the overall result is a Boolean, trying them all is the
regex's backtracking. -/
def directPfxOpts (t : Str) : List Str :=
  (match t with
    | '.' :: '/' :: r => [r]
    | _ => []) ++
  (match t with
    | a :: b :: '/' :: r => if a ≠ '\n' ∧ b ≠ '\n' then [r] else []
    | _ => []) ++
  (match t with
    | '/' :: r => [r]
    | _ => []) ++
  [t]

/-- Embedding of `agents.DIRECT_CALL_RE.match(cmd)` as a Boolean:
optional opening quote, optional prefix, path-character run with a
known script extension, then whitespace or an optionally quoted end. -/
def directCallB (cmd : Str) : Bool :=
  let starts : List Str :=
    match cmd with
    | c :: t => if isQuoteC c then [t, cmd] else [cmd]
    | [] => [cmd]
  starts.any (fun t => (directPfxOpts t).any directBody)

example : directCallB (chars "./x.sh") = true := by decide
example : directCallB (chars "utils/x.sh arg") = true := by decide
example : directCallB (chars "\"utils/x.sh\"") = true := by decide
example : directCallB (chars "echo hi") = false := by decide

/-- The accepted invocation prefixes of the Mapper's carry-over filter
(`ALLOWED_PREFIXES`). -/
def allowedPfxs : List Str :=
  [chars ". ", chars "source ", chars "& ", chars "call ", chars "start ",
   chars "bash ", chars "sh ", chars "ksh ", chars "python ",
   chars "python3 ", chars "perl "]

/-- The command filter of the carry-over: keep an edge whose
stripped-and-lowered command is empty, starts with an accepted
invocation prefix, or matches `DIRECT_CALL_RE`. -/
def cmdOkB (command : Str) : Bool :=
  let cmd := toLowerS (pyStripWs command)
  cmd.isEmpty || allowedPfxs.any (fun p => hasPfxL p cmd) || directCallB cmd

/-- `Mapper.run`'s `_canon_case`: lower-case on a Windows bundle. -/
def caseW (w : Bool) (p : Str) : Str := if w then toLowerS p else p

/-- The case-aware allow-list membership test used throughout
`Mapper.run`: `t in allowed_set or (windowsish and t.lower() in
allowed_lower)`. -/
def allowedHit (allowed : List Str) (w : Bool) (t : Str) : Bool :=
  decide (t ∈ allowed) || (w && decide (toLowerS t ∈ allowed.map toLowerS))

/-- The destination filter of the carry-over, on the case-canonicalized
destination. -/
def dstOkB (allowed : List Str) (w : Bool) (e : EdgeM) : Bool :=
  allowedHit allowed w (caseW w e.dst)

/-- The edge the carry-over constructs before `Graph.add_edge`
canonicalizes its endpoints: case-canonicalized endpoints, all other
fields copied verbatim from the baseline edge. -/
def carryEdge (w : Bool) (e : EdgeM) : EdgeM :=
  { src := caseW w e.src, dst := caseW w e.dst, kind := e.kind,
    command := e.command, dynamic := e.dynamic, resolved := e.resolved,
    confidence := e.confidence, reason := e.reason }

/-- One baseline edge of the carry-over loop of `Mapper.run`: a
non-dynamic edge whose destination is in the case-aware allow-list and
whose command passes the invocation filter is added to the fresh graph;
everything else is dropped. -/
def carryStep (allowed : List Str) (w : Bool) (g : GraphM) (e : EdgeM) : GraphM :=
  if e.dynamic = false ∧ dstOkB allowed w e = true ∧ cmdOkB e.command = true then
    g.addEdge (carryEdge w e)
  else g

/-- The carry-over stage of `Mapper.run` applied to the baseline. -/
def carryOver (allowed : List Str) (w : Bool) (baseline : List EdgeM) : GraphM :=
  baseline.foldl (carryStep allowed w) emptyG

/-- A call site of the Observation Batch, restricted to the fields
`Mapper.run` reads (`src`, `raw`, `kind`, `cmd`, `dynamic`; the line,
column, span and confidence entries of the observation dicts are never
read by the Mapper). -/
structure CallS where
  src : Str
  raw : Str
  kind : Str
  cmd : Str
  dynamic : Bool
deriving DecidableEq, Repr

/-- Abstraction of the LLM collaborator of `Mapper.run`: each pass maps
a call site and its environment to the `targets` list parsed from the
response JSON together with the `reasoning` string.  A transport error,
a non-JSON response, and the empty-observations gate before the second
prompt all surface to the caller as an empty list, so they are oracle
choices; the normalization and allow-list filtering the code applies to
the parsed targets is *not* part of the oracle and is modelled below. -/
structure MClient where
  pass1 : CallS → List (Str × Str) → List Str × Str
  pass2 : CallS → List (Str × Str) → List Str × Str

/-- Model of `os.path.dirname` (POSIX). -/
def dirName (s : Str) : Str :=
  let j := (s.reverse.takeWhile (fun c => c ≠ '/')).length
  if j = s.length then []
  else
    let head := s.take (s.length - j)
    if head.all (fun c => c = '/') then head
    else (head.reverse.dropWhile (fun c => c = '/')).reverse

example : dirName (chars "a/b/c.sh") = chars "a/b" := by decide
example : dirName (chars "c.sh") = chars "" := by decide
example : dirName (chars "/c.sh") = chars "/" := by decide

/-- Model of `os.path.join` for the two-argument POSIX uses in
`Mapper.run`. -/
def joinPath (a b : Str) : Str :=
  if hasPfxL slashL b then b
  else if a.isEmpty then b
  else if hasSfx a '/' then a ++ b
  else a ++ slashL ++ b

/-- An unresolved call-site record (`src`, `raw_target`, `reason`). -/
structure UnresM where
  src : Str
  raw : Str
  reason : Str
deriving DecidableEq, Repr

/-- The mutable state of the call-site loop of `Mapper.run`: the graph
being built, the unresolved list, and the `(src, dst, kind)` dedupe set
(`seen`), which persists across call sites. -/
structure MapSt where
  g : GraphM
  unres : List UnresM
  seen : List (Str × Str × Str)

/-- The direct-resolution candidates for a non-dynamic call site in
two-role mode: the local substitution (when non-empty and different
from the normalized raw target) and then the normalized raw target. -/
def directCands (env : List (Str × Str)) (raw : Str) : List Str :=
  let tSub := substPy env raw
  (if tSub ≠ [] ∧ tSub ≠ normPath raw then [tSub] else []) ++ [normPath raw]

/-- The candidate loop of the non-dynamic branch: for each candidate in
order, accept it as-is or relative to the caller's directory on an
allow-list hit, producing a static resolved edge with confidence 0.9
and reason `"static-direct in 2R/4R"`; `none` when no candidate hits. -/
def tryDirect (allowed : List Str) (w : Bool) (src kind cmd : Str)
    (g : GraphM) : List Str → Option GraphM
  | [] => none
  | t :: rest =>
    if allowedHit allowed w t = true then
      some (g.addEdge
        { src := caseW w src, dst := caseW w t, kind := kind,
          command := cmd, dynamic := false, resolved := true,
          confidence := mkRat 9 10, reason := some (chars "static-direct in 2R/4R") })
    else
      let rel := normPath (joinPath (dirName src) t)
      if allowedHit allowed w rel = true then
        some (g.addEdge
          { src := caseW w src, dst := caseW w rel, kind := kind,
            command := cmd, dynamic := false, resolved := true,
            confidence := mkRat 9 10, reason := some (chars "static-direct in 2R/4R") })
      else tryDirect allowed w src kind cmd g rest

/-- The two LLM passes of the dynamic branch: pass 1, and pass 2 only
when pass 1 (normalized and filtered against the case-aware allow-list)
returned nothing; the reasoning of pass 2 overrides that of pass 1 only
when non-blank. -/
def llmTargets (allowed : List Str) (w : Bool) (client : Option MClient)
    (cs : CallS) (env : List (Str × Str)) : List Str × Str :=
  match client with
  | none => ([], [])
  | some cl =>
    let p1 := cl.pass1 cs env
    let t1 := (p1.1.map normPath).filter (allowedHit allowed w)
    let why1 := pyStripWs p1.2
    if t1 = [] then
      let q := cl.pass2 cs env
      let t2 := (q.1.map normPath).filter (allowedHit allowed w)
      let wq := pyStripWs q.2
      (t2, if wq = [] then why1 else wq)
    else (t1, why1)

/-- Target resolution for a dynamic call site: the LLM passes, then the
always-attempted heuristic fallback — local substitution accepted iff
it differs from the normalized raw target and is (strictly) in the
allow-list, with reason `"local var substitution"`. -/
def resolveDyn (allowed : List Str) (w : Bool) (client : Option MClient)
    (cs : CallS) (env : List (Str × Str)) : List Str × Str :=
  let l := llmTargets allowed w client cs env
  if l.1 = [] then
    let t := substPy env cs.raw
    if t ≠ normPath cs.raw ∧ t ∈ allowed then ([t], chars "local var substitution")
    else ([], l.2)
  else l

/-- The per-target insertion loop of the dynamic branch: dedupe by
`(src, dst, kind)` against the persistent `seen` set, add an edge with
the original kind and command, `dynamic` from the call site,
`resolved = True`, confidence 0.7 and the reasoning (or no reason when
it is empty). -/
def addTargetsGo (w : Bool) (srcC kind cmd : Str) (dyn : Bool) (why : Str) :
    List Str → GraphM → List (Str × Str × Str) → GraphM × List (Str × Str × Str)
  | [], g, seen => (g, seen)
  | t :: rest, g, seen =>
    let tC := caseW w t
    if (srcC, tC, kind) ∈ seen then addTargetsGo w srcC kind cmd dyn why rest g seen
    else
      addTargetsGo w srcC kind cmd dyn why rest
        (g.addEdge
          { src := srcC, dst := tC, kind := kind, command := cmd,
            dynamic := dyn, resolved := true, confidence := mkRat 7 10,
            reason := if why = [] then none else some why })
        ((srcC, tC, kind) :: seen)

/-- One call site of the loop of `Mapper.run`.  Non-dynamic sites are
skipped (node only) when a static baseline exists and directly resolved
otherwise; dynamic sites go through the LLM passes and the heuristic
fallback, and a miss appends to `unresolved` with reason
`"no-targets-from-LLM"`. -/
def mapStep (allowed : List Str) (w : Bool) (hasBase : Bool)
    (envFor : Str → List (Str × Str)) (client : Option MClient)
    (st : MapSt) (cs : CallS) : MapSt :=
  let cmd := if cs.cmd = [] then cs.kind ++ [' '] ++ cs.raw else cs.cmd
  let env := envFor cs.src
  if cs.dynamic = false then
    if hasBase = false then
      match tryDirect allowed w cs.src cs.kind cmd st.g (directCands env cs.raw) with
      | some g2 => { st with g := g2 }
      | none =>
        { st with g := st.g.addNode cs.src,
                  unres := st.unres ++
                    [⟨caseW w cs.src, cs.raw, chars "non-dynamic-unresolved"⟩] }
    else { st with g := st.g.addNode cs.src }
  else
    let r := resolveDyn allowed w client cs env
    if r.1 = [] then
      { st with g := st.g.addNode cs.src,
                unres := st.unres ++
                  [⟨caseW w cs.src, cs.raw, chars "no-targets-from-LLM"⟩] }
    else
      let p := addTargetsGo w (caseW w cs.src) cs.kind cmd cs.dynamic r.2 r.1 st.g st.seen
      { st with g := p.1, seen := p.2 }

/-- Functional model of `Mapper.run`.  Inputs that the source derives
from the outside world enter as parameters: `allowed` is the allow-list
the Mapper rebuilds by re-indexing the bundle, `w` the `meta.json`
Windows flag, `envFor` the scoped-precedence environment `env_for(src)`
(its four construction steps read observation variables and script
files and only feed the substitutions — every theorem below holds for
every such map), and `client` the optional LLM.  The SQLite writes,
logging and the coverage counters have no effect on the graph or the
unresolved list and are omitted. -/
def mapperRun (allowed : List Str) (w : Bool) (baseline : List EdgeM)
    (callSites : List CallS) (envFor : Str → List (Str × Str))
    (client : Option MClient) : MapSt :=
  let hasBase := baseline.any (fun e => !e.dynamic)
  callSites.foldl (mapStep allowed w hasBase envFor client)
    ⟨carryOver allowed w baseline, [], []⟩

example :
    (mapperRun [chars "lib/a.sh"] false []
      [⟨chars "run.sh", chars "${A}/a.sh", chars "call", chars "x", true⟩]
      (fun _ => [(chars "A", chars "lib")]) none).g.edges =
    [{ src := chars "run.sh", dst := chars "lib/a.sh", kind := chars "call",
       command := chars "x", dynamic := true, resolved := true,
       confidence := mkRat 7 10, reason := some (chars "local var substitution") }] := by
  decide

example :
    (mapperRun [chars "a.sh"] false
      [{ src := chars "a.sh", dst := chars "missing.sh", kind := chars "call",
         command := chars "bash missing.sh", dynamic := false, resolved := true }]
      [] (fun _ => []) none).g.edges = [] := by
  decide

theorem GraphM.edges_addEdge (g : GraphM) (e : EdgeM) :
    (g.addEdge e).edges =
      g.edges ++ [{ e with src := canon e.src, dst := canon e.dst }] := by
  unfold GraphM.addEdge
  rw [GraphM.edges_addNode, GraphM.edges_addNode]

theorem mem_edges_addEdge {g : GraphM} {e' : EdgeM} (e : EdgeM)
    (h : e' ∈ g.edges) : e' ∈ (g.addEdge e).edges := by
  rw [GraphM.edges_addEdge]
  exact List.mem_append_left _ h

theorem new_mem_edges_addEdge (g : GraphM) (e : EdgeM) :
    ({ e with src := canon e.src, dst := canon e.dst } : EdgeM) ∈ (g.addEdge e).edges := by
  rw [GraphM.edges_addEdge]
  exact List.mem_append_right _ (List.mem_singleton.mpr rfl)

theorem mem_edges_carryStep {allowed : List Str} {w : Bool} {g : GraphM}
    {e' : EdgeM} (b : EdgeM) (h : e' ∈ g.edges) :
    e' ∈ (carryStep allowed w g b).edges := by
  unfold carryStep
  split
  · exact mem_edges_addEdge _ h
  · exact h

theorem mem_edges_carry_foldl {allowed : List Str} {w : Bool} :
    ∀ (bl : List EdgeM) (g : GraphM) {e' : EdgeM}, e' ∈ g.edges →
      e' ∈ (bl.foldl (carryStep allowed w) g).edges := by
  intro bl
  induction bl with
  | nil => intro g e' h; exact h
  | cons b rest ih =>
    intro g e' h
    exact ih _ (mem_edges_carryStep b h)

/-- The edge that the carry-over stores for a surviving baseline edge:
case-canonicalized then `canon`-canonicalized endpoints, all other
fields verbatim. -/
def carriedOf (w : Bool) (e : EdgeM) : EdgeM :=
  { src := canon (caseW w e.src), dst := canon (caseW w e.dst), kind := e.kind,
    command := e.command, dynamic := e.dynamic, resolved := e.resolved,
    confidence := e.confidence, reason := e.reason }

theorem carry_foldl_mem {allowed : List Str} {w : Bool} :
    ∀ (bl : List EdgeM) (g : GraphM) {e : EdgeM}, e ∈ bl →
      e.dynamic = false → dstOkB allowed w e = true → cmdOkB e.command = true →
      carriedOf w e ∈ (bl.foldl (carryStep allowed w) g).edges := by
  intro bl
  induction bl with
  | nil => intro g e h; exact absurd h (List.not_mem_nil _)
  | cons b rest ih =>
    intro g e h hdyn hdst hcmd
    rcases List.mem_cons.mp h with h1 | h2
    · subst h1
      apply mem_edges_carry_foldl rest
      unfold carryStep
      rw [if_pos ⟨hdyn, hdst, hcmd⟩]
      exact new_mem_edges_addEdge g (carryEdge w e)
    · exact ih _ h2 hdyn hdst hcmd

theorem tryDirect_mono {allowed : List Str} {w : Bool} {src kind cmd : Str} :
    ∀ (cands : List Str) (g g2 : GraphM) {e' : EdgeM},
      tryDirect allowed w src kind cmd g cands = some g2 →
      e' ∈ g.edges → e' ∈ g2.edges := by
  intro cands
  induction cands with
  | nil => intro g g2 e' h; exact absurd h (by simp [tryDirect])
  | cons t rest ih =>
    intro g g2 e' h hm
    simp only [tryDirect] at h
    by_cases h1 : allowedHit allowed w t = true
    · rw [if_pos h1] at h
      cases h
      exact mem_edges_addEdge _ hm
    · rw [if_neg h1] at h
      by_cases h2 : allowedHit allowed w (normPath (joinPath (dirName src) t)) = true
      · rw [if_pos h2] at h
        cases h
        exact mem_edges_addEdge _ hm
      · rw [if_neg h2] at h
        exact ih _ _ h hm

theorem addTargetsGo_mono {w : Bool} {srcC kind cmd : Str} {dyn : Bool} {why : Str} :
    ∀ (ts : List Str) (g : GraphM) (seen : List (Str × Str × Str)) {e' : EdgeM},
      e' ∈ g.edges → e' ∈ (addTargetsGo w srcC kind cmd dyn why ts g seen).1.edges := by
  intro ts
  induction ts with
  | nil => intro g seen e' h; exact h
  | cons t rest ih =>
    intro g seen e' h
    simp only [addTargetsGo]
    split
    · exact ih _ _ h
    · exact ih _ _ (mem_edges_addEdge _ h)

theorem mapStep_mono {allowed : List Str} {w : Bool} {hasBase : Bool}
    {envFor : Str → List (Str × Str)} {client : Option MClient}
    {st : MapSt} {cs : CallS} {e' : EdgeM} (h : e' ∈ st.g.edges) :
    e' ∈ (mapStep allowed w hasBase envFor client st cs).g.edges := by
  simp only [mapStep]
  by_cases h1 : cs.dynamic = false
  · rw [if_pos h1]
    by_cases h2 : hasBase = false
    · rw [if_pos h2]
      cases htry : tryDirect allowed w cs.src cs.kind
          (if cs.cmd = [] then cs.kind ++ [' '] ++ cs.raw else cs.cmd) st.g
          (directCands (envFor cs.src) cs.raw) with
      | some g2 =>
        simp only [htry]
        exact tryDirect_mono _ _ _ htry h
      | none =>
        simp only [htry]
        rw [GraphM.edges_addNode]
        exact h
    · rw [if_neg h2]
      rw [GraphM.edges_addNode]
      exact h
  · rw [if_neg h1]
    split
    · rw [GraphM.edges_addNode]
      exact h
    · exact addTargetsGo_mono _ _ _ h

theorem mapFoldl_mono {allowed : List Str} {w : Bool} {hasBase : Bool}
    {envFor : Str → List (Str × Str)} {client : Option MClient} :
    ∀ (sites : List CallS) (st : MapSt) {e' : EdgeM}, e' ∈ st.g.edges →
      e' ∈ (sites.foldl (mapStep allowed w hasBase envFor client) st).g.edges := by
  intro sites
  induction sites with
  | nil => intro st e' h; exact h
  | cons cs rest ih =>
    intro st e' h
    exact ih _ (mapStep_mono h)

/-- The baseline edge used by the counterexample to claim C1: static,
but its destination is not among the indexed files. -/
def c1CEbase : List EdgeM :=
  [{ src := chars "a.sh", dst := chars "missing.sh", kind := chars "call",
     command := chars "bash missing.sh", dynamic := false, resolved := true }]

/-- Claim C1, counterexample: the baseline holds a static (non-dynamic)
edge `a.sh -> missing.sh`, yet the Mapper's output graph holds no edge
at all — the carry-over filter deletes the static edge because its
destination is not in the allow-list (`["a.sh"]`). -/
theorem c1_counterexample :
    (∃ e ∈ c1CEbase, e.dynamic = false) ∧
    (mapperRun [chars "a.sh"] false c1CEbase [] (fun _ => []) none).g.edges = [] := by
  decide

/-- Claim C1, amended: every static (non-dynamic) baseline edge that
survives the Mapper's carry-over filter — its destination is in the
case-aware allow-list and its command is empty, starts with an accepted
invocation prefix, or matches the direct-call pattern — appears in the
Mapper's output graph with its endpoints canonicalized and every other
field verbatim, whatever the observation batch, the environment maps
and the LLM do; the resolver never deletes such an edge. -/
theorem c1_amended (allowed : List Str) (w : Bool) (baseline : List EdgeM)
    (callSites : List CallS) (envFor : Str → List (Str × Str))
    (client : Option MClient) (e : EdgeM) (he : e ∈ baseline)
    (hdyn : e.dynamic = false) (hdst : dstOkB allowed w e = true)
    (hcmd : cmdOkB e.command = true) :
    carriedOf w e ∈ (mapperRun allowed w baseline callSites envFor client).g.edges := by
  unfold mapperRun
  exact mapFoldl_mono callSites _ (carry_foldl_mem baseline emptyG he hdyn hdst hcmd)

/-- Witness for the amended claim C1 at a concrete run. -/
theorem c1_amended_witness :
    carriedOf false
      { src := chars "a.sh", dst := chars "b.sh", kind := chars "call",
        command := chars "bash b.sh", dynamic := false, resolved := true } ∈
    (mapperRun [chars "a.sh", chars "b.sh"] false
      [{ src := chars "a.sh", dst := chars "b.sh", kind := chars "call",
         command := chars "bash b.sh", dynamic := false, resolved := true }]
      [] (fun _ => []) none).g.edges :=
  c1_amended [chars "a.sh", chars "b.sh"] false _ [] (fun _ => []) none _
    (List.mem_singleton.mpr rfl) (by decide) (by decide) (by decide)

/-- The allow-list in its canonical, case-aware form: lower-cased on a
Windows bundle (the claim's "canonical relative paths" with the
platform's case policy applied). -/
def caseAllow (allowed : List Str) (w : Bool) : List Str :=
  if w then allowed.map toLowerS else allowed

/-- The dynamic-edge allow-list property of claim C2 for one edge. -/
def dynOkP (allowed : List Str) (w : Bool) (e : EdgeM) : Prop :=
  e.dynamic = true → e.resolved = true → e.dst ∈ caseAllow allowed w

theorem edges_carry_nondyn {allowed : List Str} {w : Bool} :
    ∀ (bl : List EdgeM) (g : GraphM),
      (∀ e ∈ g.edges, e.dynamic = false) →
      ∀ e ∈ (bl.foldl (carryStep allowed w) g).edges, e.dynamic = false := by
  intro bl
  induction bl with
  | nil => intro g hg; exact hg
  | cons b rest ih =>
    intro g hg
    refine ih _ ?_
    intro e he
    unfold carryStep at he
    by_cases hc : b.dynamic = false ∧ dstOkB allowed w b = true ∧ cmdOkB b.command = true
    · rw [if_pos hc] at he
      rw [GraphM.edges_addEdge] at he
      rcases List.mem_append.mp he with h1 | h2
      · exact hg e h1
      · rw [List.mem_singleton.mp h2]
        exact hc.1
    · rw [if_neg hc] at he
      exact hg e he

theorem target_dst_mem {allowed : List Str} {w : Bool} {t : Str}
    (hA : ∀ p ∈ allowed, canon p = p)
    (hA2 : ∀ p ∈ allowed, canon (toLowerS p) = toLowerS p)
    (ht : allowedHit allowed w t = true) :
    canon (caseW w t) ∈ caseAllow allowed w := by
  cases w with
  | false =>
    simp only [allowedHit, Bool.false_and, Bool.or_false, decide_eq_true_eq] at ht
    simpa [caseW, caseAllow, hA t ht] using ht
  | true =>
    simp only [allowedHit, Bool.true_and, Bool.or_eq_true, decide_eq_true_eq] at ht
    simp only [caseW, caseAllow, if_pos]
    rcases ht with h1 | h2
    · rw [hA2 t h1]
      exact List.mem_map_of_mem _ h1
    · rcases List.mem_map.mp h2 with ⟨a, ha, haeq⟩
      rw [← haeq, hA2 a ha]
      exact List.mem_map_of_mem _ ha

theorem addTargetsGo_inv {allowed : List Str} {w : Bool}
    {srcC kind cmd : Str} {dyn : Bool} {why : Str}
    (hA : ∀ p ∈ allowed, canon p = p)
    (hA2 : ∀ p ∈ allowed, canon (toLowerS p) = toLowerS p) :
    ∀ (ts : List Str) (g : GraphM) (seen : List (Str × Str × Str)),
      (∀ e ∈ g.edges, dynOkP allowed w e) →
      (∀ t ∈ ts, allowedHit allowed w t = true) →
      ∀ e ∈ (addTargetsGo w srcC kind cmd dyn why ts g seen).1.edges,
        dynOkP allowed w e := by
  intro ts
  induction ts with
  | nil => intro g seen hg _; exact hg
  | cons t rest ih =>
    intro g seen hg hts
    simp only [addTargetsGo]
    split
    · exact ih _ _ hg (fun u hu => hts u (List.mem_cons_of_mem _ hu))
    · refine ih _ _ ?_ (fun u hu => hts u (List.mem_cons_of_mem _ hu))
      intro e he
      rw [GraphM.edges_addEdge] at he
      rcases List.mem_append.mp he with h1 | h2
      · exact hg e h1
      · rw [List.mem_singleton.mp h2]
        intro _ _
        exact target_dst_mem hA hA2 (hts t (List.mem_cons_self _ _))

theorem tryDirect_inv {allowed : List Str} {w : Bool} {src kind cmd : Str} :
    ∀ (cands : List Str) (g g2 : GraphM),
      tryDirect allowed w src kind cmd g cands = some g2 →
      (∀ e ∈ g.edges, dynOkP allowed w e) →
      ∀ e ∈ g2.edges, dynOkP allowed w e := by
  intro cands
  induction cands with
  | nil => intro g g2 h; exact absurd h (by simp [tryDirect])
  | cons t rest ih =>
    intro g g2 h hg
    simp only [tryDirect] at h
    by_cases h1 : allowedHit allowed w t = true
    · rw [if_pos h1] at h
      cases h
      intro e he
      rw [GraphM.edges_addEdge] at he
      rcases List.mem_append.mp he with ha | hb
      · exact hg e ha
      · rw [List.mem_singleton.mp hb]
        intro hdyn _
        exact absurd hdyn (by simp)
    · rw [if_neg h1] at h
      by_cases h2 : allowedHit allowed w (normPath (joinPath (dirName src) t)) = true
      · rw [if_pos h2] at h
        cases h
        intro e he
        rw [GraphM.edges_addEdge] at he
        rcases List.mem_append.mp he with ha | hb
        · exact hg e ha
        · rw [List.mem_singleton.mp hb]
          intro hdyn _
          exact absurd hdyn (by simp)
      · rw [if_neg h2] at h
        exact ih _ _ h hg

theorem llmTargets_allowed {allowed : List Str} {w : Bool}
    {client : Option MClient} {cs : CallS} {env : List (Str × Str)} :
    ∀ t ∈ (llmTargets allowed w client cs env).1, allowedHit allowed w t = true := by
  intro t ht
  unfold llmTargets at ht
  cases client with
  | none => exact absurd ht (List.not_mem_nil _)
  | some cl =>
    simp only at ht
    split at ht
    · exact (List.mem_filter.mp ht).2
    · exact (List.mem_filter.mp ht).2

theorem resolveDyn_allowed {allowed : List Str} {w : Bool}
    {client : Option MClient} {cs : CallS} {env : List (Str × Str)} :
    ∀ t ∈ (resolveDyn allowed w client cs env).1, allowedHit allowed w t = true := by
  intro t ht
  by_cases hl : (llmTargets allowed w client cs env).1 = []
  · by_cases hc : substPy env cs.raw ≠ normPath cs.raw ∧ substPy env cs.raw ∈ allowed
    · have hr : (resolveDyn allowed w client cs env).1 = [substPy env cs.raw] := by
        simp [resolveDyn, hl, hc]
      rw [hr] at ht
      rw [List.mem_singleton.mp ht]
      simp only [allowedHit, Bool.or_eq_true, decide_eq_true_eq]
      exact Or.inl hc.2
    · have hr : (resolveDyn allowed w client cs env).1 = [] := by
        simp [resolveDyn, hl, hc]
      rw [hr] at ht
      exact absurd ht (List.not_mem_nil _)
  · have hr : (resolveDyn allowed w client cs env).1 = (llmTargets allowed w client cs env).1 := by
      simp [resolveDyn, hl]
    rw [hr] at ht
    exact llmTargets_allowed t ht

theorem mapStep_inv {allowed : List Str} {w : Bool} {hasBase : Bool}
    {envFor : Str → List (Str × Str)} {client : Option MClient}
    {st : MapSt} {cs : CallS}
    (hA : ∀ p ∈ allowed, canon p = p)
    (hA2 : ∀ p ∈ allowed, canon (toLowerS p) = toLowerS p)
    (hg : ∀ e ∈ st.g.edges, dynOkP allowed w e) :
    ∀ e ∈ (mapStep allowed w hasBase envFor client st cs).g.edges,
      dynOkP allowed w e := by
  simp only [mapStep]
  by_cases h1 : cs.dynamic = false
  · rw [if_pos h1]
    by_cases h2 : hasBase = false
    · rw [if_pos h2]
      cases htry : tryDirect allowed w cs.src cs.kind
          (if cs.cmd = [] then cs.kind ++ [' '] ++ cs.raw else cs.cmd) st.g
          (directCands (envFor cs.src) cs.raw) with
      | some g2 =>
        simp only [htry]
        exact tryDirect_inv _ _ _ htry hg
      | none =>
        simp only [htry]
        intro e he
        rw [GraphM.edges_addNode] at he
        exact hg e he
    · rw [if_neg h2]
      intro e he
      rw [GraphM.edges_addNode] at he
      exact hg e he
  · rw [if_neg h1]
    split
    · intro e he
      rw [GraphM.edges_addNode] at he
      exact hg e he
    · exact addTargetsGo_inv hA hA2 _ _ _ hg resolveDyn_allowed

theorem mapFoldl_inv {allowed : List Str} {w : Bool} {hasBase : Bool}
    {envFor : Str → List (Str × Str)} {client : Option MClient}
    (hA : ∀ p ∈ allowed, canon p = p)
    (hA2 : ∀ p ∈ allowed, canon (toLowerS p) = toLowerS p) :
    ∀ (sites : List CallS) (st : MapSt),
      (∀ e ∈ st.g.edges, dynOkP allowed w e) →
      ∀ e ∈ (sites.foldl (mapStep allowed w hasBase envFor client) st).g.edges,
        dynOkP allowed w e := by
  intro sites
  induction sites with
  | nil => intro st hg; exact hg
  | cons cs rest ih =>
    intro st hg
    exact ih _ (mapStep_inv hA hA2 hg)

/-- Claim C2, amended (role-based pipeline): for every run of the
Mapper whose allow-list is canonical (stable under `canon`, also after
case folding), every edge of the output graph that is marked dynamic
and resolved has its destination in the case-aware allow-list — for
any baseline, observation batch, environment maps and LLM behaviour. -/
theorem c2_amended (allowed : List Str) (w : Bool) (baseline : List EdgeM)
    (callSites : List CallS) (envFor : Str → List (Str × Str))
    (client : Option MClient)
    (hA : ∀ p ∈ allowed, canon p = p)
    (hA2 : ∀ p ∈ allowed, canon (toLowerS p) = toLowerS p) :
    ∀ e ∈ (mapperRun allowed w baseline callSites envFor client).g.edges,
      e.dynamic = true → e.resolved = true → e.dst ∈ caseAllow allowed w := by
  unfold mapperRun
  refine mapFoldl_inv hA hA2 callSites _ ?_
  intro e he hdyn _
  have := edges_carry_nondyn baseline emptyG (fun _ hx => absurd hx (List.not_mem_nil _)) e he
  rw [hdyn] at this
  exact absurd this (by simp)

/-- The dynamic resolved edge produced by the witness run of amended
claim C2: the heuristic fallback resolves `${A}/a.sh` to the
allow-listed `lib/a.sh`. -/
def c2WEdge : EdgeM :=
  { src := chars "run.sh", dst := chars "lib/a.sh", kind := chars "call",
    command := chars "x", dynamic := true, resolved := true,
    confidence := mkRat 7 10, reason := some (chars "local var substitution") }

/-- Witness for the amended claim C2 at a concrete run. -/
theorem c2_amended_witness : c2WEdge.dst ∈ caseAllow [chars "lib/a.sh"] false :=
  c2_amended [chars "lib/a.sh"] false []
    [⟨chars "run.sh", chars "${A}/a.sh", chars "call", chars "x", true⟩]
    (fun _ => [(chars "A", chars "lib")]) none (by decide) (by decide)
    c2WEdge (by decide) rfl rfl

/-- Embedding of `AgentMapper._subst`: one pass over the gathered
variables, replacing the literals `${K}` then `$K` for each, then
backslashes to `'/'` (no `%K%`/`!K!` handling and no iteration here,
unlike the role-based Mapper's `_subst`). -/
def substAM (s : Str) (env : List (Str × Str)) : Str :=
  let out := env.foldl
    (fun o kv =>
      pyReplace (pyReplace o ('$' :: '{' :: (kv.1 ++ ['}'])) kv.2) ('$' :: kv.1) kv.2)
    s
  pyReplace out bsL slashL

/-- Embedding of `AgentMapper._conf_subst`: 0.8, plus 0.1 when the
substituted path exists under the root (`exS` is the
`(root / p).exists()` oracle). -/
def confSubst (exS : Str → Bool) (p : Str) : ℚ :=
  if exS p then mkRat 9 10 else mkRat 8 10

/-- Embedding of `AgentMapper._conf_llm`. -/
def confLLM (exS : Str → Bool) (p : Str) (c : Option ℚ) : ℚ :=
  let base := match c with
    | none => mkRat 6 10
    | some cv => max (mkRat 5 10) (min (mkRat 9 10) (mkRat 5 10 + mkRat 4 10 * cv))
  if exS p then min (mkRat 95 100) (base + mkRat 1 10) else base

/-- Embedding of `AgentMapper._resolved_edge`: slashes normalized, one
leading `"./"` stripped, `dynamic=True`, `resolved=True` (the
`round(conf, 3)` is the identity on the exact decimals of this model;
the `except TypeError` fallback never fires since `Edge` accepts
`reason`). -/
def resolvedEdgeAM (base : EdgeM) (dst : Str) (conf : ℚ) (reason : Option Str) : EdgeM :=
  let d1 := pyReplace dst bsL slashL
  let d2 := if hasPfxL dotSlashL d1 then d1.drop 2 else d1
  { src := base.src, dst := d2, kind := base.kind, command := base.command,
    dynamic := true, resolved := true, confidence := conf, reason := reason }

/-- Abstraction of `AgentMapper._llm_resolve`'s chat exchange: given the
source, command and hints it returns the parsed `(path, confidence)`
items and the reasoning; transport errors and malformed JSON surface as
an empty list.  The path clean-up the code applies to each item is
modelled in `agentLLMTargets` below. -/
structure AClient where
  resolve : Str → Str → List (Str × Str) → List (Str × Option ℚ) × Str

/-- The per-item clean-up of `AgentMapper._llm_resolve`: strip
whitespace and quotes, backslashes to `'/'`, one leading `"./"`
stripped. -/
def agentLLMTargets (cl : AClient) (e : EdgeM) (hints : List (Str × Str)) :
    List (Str × Option ℚ) × Str :=
  let r := cl.resolve e.src e.command hints
  (r.1.map (fun it =>
      let p := pyReplace (cleanVal it.1) bsL slashL
      (if hasPfxL dotSlashL p then p.drop 2 else p, it.2)),
    r.2)

/-- One edge of the `AgentMapper.map_bundle` loop: resolved or
non-dynamic edges pass through; otherwise heuristic substitution (kept
whenever it changed the string, with no allow-list or existence check),
then the LLM, then the edge unchanged. -/
def agentMapEdge (exS : Str → Bool) (varEnv : List (Str × Str))
    (client : Option AClient) (e : EdgeM) : List EdgeM :=
  if e.resolved = true ∨ e.dynamic = false then [e]
  else
    let candidate := substAM e.dst varEnv
    if candidate ≠ e.dst then
      [resolvedEdgeAM e candidate (confSubst exS candidate)
        (some (chars "local var substitution"))]
    else
      match client with
      | some cl =>
        let r := agentLLMTargets cl e varEnv
        if r.1 ≠ [] then
          r.1.map (fun pc =>
            resolvedEdgeAM e pc.1 (confLLM exS pc.1 pc.2)
              (if r.2 = [] then none else some r.2))
        else [e]
      | none => [e]

/-- Functional model of `AgentMapper.map_bundle`: rewrite the edge list
edge by edge, then `add_node` every edge's destination.  The gathered
variable environment (`_gather_vars` reads the first 200 lines of every
`.sh` file) and the existence oracle are filesystem inputs and enter as
parameters. -/
def agentMapBundle (exS : Str → Bool) (varEnv : List (Str × Str))
    (client : Option AClient) (g : GraphM) : GraphM :=
  let newEdges := g.edges.flatMap (agentMapEdge exS varEnv client)
  newEdges.foldl (fun gg ed => gg.addNode ed.dst) { g with edges := newEdges }

/-- The input graph of the counterexample to claim C2: one dynamic
unresolved edge with a variable-indirected destination, in a bundle
whose only indexed script (the allow-list) is `run.sh`. -/
def c2CEGraph : GraphM :=
  { nodes := [chars "run.sh"],
    edges := [{ src := chars "run.sh", dst := chars "$A/x.sh",
                kind := chars "call", command := chars "\"$A/x.sh\"",
                dynamic := true, resolved := false,
                confidence := mkRat 5 10 }] }

/-- Claim C2, counterexample: a run of `AgentMapper.map_bundle` (the
`map`/`all` pipelines) substitutes `A=nowhere` into `$A/x.sh` and emits
the edge `run.sh -> nowhere/x.sh` marked dynamic and resolved, although
`nowhere/x.sh` is not in the file allow-list (`["run.sh"]`) and does
not even exist — the heuristic applies no allow-list check. -/
theorem c2_counterexample :
    ∃ e ∈ (agentMapBundle (fun _ => false) [(chars "A", chars "nowhere")]
        none c2CEGraph).edges,
      e.dynamic = true ∧ e.resolved = true ∧ e.dst ∉ [chars "run.sh"] := by
  decide

/-- The dedupe key of `Writer._dedupe_edges` and of the export:
`(src, dst, kind, command, dynamic, resolved)`. -/
def dedupeKey (e : EdgeM) : Str × Str × Str × Str × Bool × Bool :=
  (e.src, e.dst, e.kind, e.command, e.dynamic, e.resolved)

/-- The loop of `Writer._dedupe_edges`: keep the first edge of each
key, in order. -/
def dedupeGo (seen : List (Str × Str × Str × Str × Bool × Bool)) :
    List EdgeM → List EdgeM
  | [] => []
  | e :: rest =>
    if dedupeKey e ∈ seen then dedupeGo seen rest
    else e :: dedupeGo (dedupeKey e :: seen) rest

/-- Embedding of `Writer._dedupe_edges` (the in-place
`g.edges = uniq` as a function on the edge list). -/
def dedupeEdges (es : List EdgeM) : List EdgeM := dedupeGo [] es

/-- The dedupe-key fields of one per-edge record of
`predicted_graph.yaml`: `write_artifacts` serializes `graph.edges` in
order, passing each endpoint through `_canon_rel`. -/
def exportKey (root : Str) (w : Bool) (e : EdgeM) :
    Str × Str × Str × Str × Bool × Bool :=
  (canonRelE root w e.src, canonRelE root w e.dst, e.kind, e.command,
    e.dynamic, e.resolved)

theorem dedupeGo_not_mem_seen :
    ∀ (es : List EdgeM) (seen : List (Str × Str × Str × Str × Bool × Bool)),
      ∀ e ∈ dedupeGo seen es, dedupeKey e ∉ seen := by
  intro es
  induction es with
  | nil => intro seen e he; exact absurd he (List.not_mem_nil _)
  | cons a rest ih =>
    intro seen e he
    simp only [dedupeGo] at he
    by_cases hc : dedupeKey a ∈ seen
    · rw [if_pos hc] at he
      exact ih seen e he
    · rw [if_neg hc] at he
      rcases List.mem_cons.mp he with h1 | h2
      · rw [h1]; exact hc
      · intro hmem
        exact ih _ e h2 (List.mem_cons_of_mem _ hmem)

/-- Claim C3, amended theorem: after `Writer._dedupe_edges` no two
edges of the list are equal under the dedupe key. -/
theorem c3_amended (es : List EdgeM) :
    List.Pairwise (fun a b => dedupeKey a ≠ dedupeKey b) (dedupeEdges es) := by
  unfold dedupeEdges
  suffices h : ∀ (l : List EdgeM) (seen : List (Str × Str × Str × Str × Bool × Bool)),
      List.Pairwise (fun a b => dedupeKey a ≠ dedupeKey b) (dedupeGo seen l) from
    h es []
  intro l
  induction l with
  | nil => intro seen; exact List.Pairwise.nil
  | cons a rest ih =>
    intro seen
    simp only [dedupeGo]
    by_cases hc : dedupeKey a ∈ seen
    · rw [if_pos hc]
      exact ih seen
    · rw [if_neg hc]
      refine List.Pairwise.cons ?_ (ih _)
      intro b hb heq
      exact dedupeGo_not_mem_seen rest _ b hb (heq ▸ List.mem_cons_self _ _)

/-- The baseline of the counterexample to claim C3: a file whose text
repeats the same invocation line produces two identical static edges in
the scan, and the carry-over copies both. -/
def c3Base : List EdgeM :=
  [{ src := chars "a.sh", dst := chars "b.sh", kind := chars "call",
     command := chars "bash b.sh", dynamic := false, resolved := true },
   { src := chars "a.sh", dst := chars "b.sh", kind := chars "call",
     command := chars "bash b.sh", dynamic := false, resolved := true }]

/-- Claim C3, counterexample: in the two-role pipeline the Mapper's
graph is exported by `write_artifacts` directly, with no
`Writer._dedupe_edges` call; a baseline with a duplicated static edge
yields an exported edge list whose dedupe keys are not pairwise
distinct. -/
theorem c3_counterexample :
    ∃ k, (((mapperRun [chars "a.sh", chars "b.sh"] false c3Base [] (fun _ => []) none).g.edges).map
        (exportKey (chars "/r") false)) = [k, k] :=
  ⟨(chars "a.sh", chars "b.sh", chars "call", chars "bash b.sh", false, true), by decide⟩

/-- The fragment of the Python AST that `python_cli.CallVisitor` reads.
`callE`'s `funcName` models `getattr(node.func, "attr",
getattr(node.func, "id", ""))`; `constStr`/`constOther` are
`ast.Constant` nodes with a string or non-string value; `plain` stands
for every other node kind, carrying the children `generic_visit` walks.
Child sequences are encoded with `nilT`/`consT` so that the visitor's
recursion is structural (and therefore kernel-executable). -/
inductive PyTree
  | callE (funcName : Str) (args : PyTree)
  | constStr (s : Str)
  | constOther
  | listE (elts : PyTree)
  | plain (children : PyTree)
  | nilT
  | consT (a : PyTree) (rest : PyTree)

/-- The exceptions `visit_Call` can raise: `UnboundLocalError` from the
unassigned `arg0`, and `TypeError` from joining a non-string constant. -/
inductive PyExc
  | unboundLocal
  | typeErr
deriving DecidableEq, Repr

/-- Join with single spaces (Python `" ".join`). -/
def joinSpace (l : List Str) : Str := List.intercalate [' '] l

/-- The callable names `visit_Call` reacts to. -/
def pyFuncNames : List Str :=
  [chars "run", chars "Popen", chars "call", chars "system"]

/-- The `ast.Constant` elements of a child chain: `some s` for a string
constant, `none` for a non-string one; other elements are skipped
(mirrors `[e.value for e in arg0.elts if isinstance(e, ast.Constant)]`). -/
def constsOf : PyTree → List (Option Str)
  | .consT e rest =>
    (match e with
      | .constStr s => [some s]
      | .constOther => [none]
      | _ => []) ++ constsOf rest
  | _ => []

/-- The body of `CallVisitor.visit_Call` for a recognized callable:
with no arguments, `arg0` is never assigned and the following
`isinstance(arg0, ast.List)` raises `UnboundLocalError`; a list whose
first element is a constant is joined (`" ".join` raising `TypeError`
when any constant member is not a string); a string constant is
emitted; any other first argument emits nothing. -/
def visitCallArgs : PyTree → Except PyExc (List Str)
  | .nilT => .error .unboundLocal
  | .consT a0 _ =>
    match a0 with
    | .listE (.consT e0 es) =>
      match e0 with
      | .constStr _ =>
        let vs := constsOf (.consT e0 es)
        if vs.all Option.isSome then .ok [joinSpace (vs.filterMap id)]
        else .error .typeErr
      | .constOther =>
        let vs := constsOf (.consT e0 es)
        if vs.all Option.isSome then .ok [joinSpace (vs.filterMap id)]
        else .error .typeErr
      | _ => .ok []
    | .constStr s => .ok [s]
    | _ => .ok []
  | _ => .ok []

/-- Walk of `CallVisitor.visit` / `generic_visit`: a recognized call
contributes its command first (possibly raising), then the children are
visited in order; a chain cell visits its head and then the rest. -/
def visitT : PyTree → Except PyExc (List Str)
  | .callE f args => do
    let here ← if f ∈ pyFuncNames then visitCallArgs args else Except.ok []
    let rest ← visitT args
    pure (here ++ rest)
  | .constStr _ => pure []
  | .constOther => pure []
  | .listE elts => visitT elts
  | .plain cs => visitT cs
  | .nilT => pure []
  | .consT a rest => do
    let r1 ← visitT a
    let r2 ← visitT rest
    pure (r1 ++ r2)

/-- `CallVisitor().visit(tree)` collecting `self.cmds` (line numbers
dropped: the parser below never reads them). -/
def visitCmds (ast : PyTree) : Except PyExc (List Str) := visitT ast

/-- `python_cli.SHELL_EXTS`.  The source writes it as a Python set
literal; its iteration order is an interpreter detail that only affects
the order of emitted edges, modelled here in the literal's order. -/
def pyShellExts : List Str :=
  [chars ".sh", chars ".bash", chars ".ksh", chars ".cmd", chars ".bat", chars ".ps1"]

/-- Whitespace split keeping the pieces (model of Python `s.split()`
before dropping empties). -/
def splitWsAll (s : Str) : List Str :=
  s.foldr
    (fun c acc =>
      if isPyWs c then [] :: acc
      else
        match acc with
        | [] => [[c]]
        | a :: as => (c :: a) :: as)
    [[]]

/-- Model of Python `s.split()` (split on whitespace, no empties). -/
def pyWords (s : Str) : List Str := (splitWsAll s).filter (fun w => !w.isEmpty)

/-- Suffix test (Python `tok.endswith(ext)`). -/
def endsWithS (s sfx : Str) : Bool := hasPfxL sfx.reverse s.reverse

/-- The edge construction of `parse_python_cli` from the collected
commands: for each extension contained in the command, one non-dynamic
resolved edge per whitespace token ending with that extension,
confidence 0.8. -/
def pyCliEdges (rel : Str) (cmds : List Str) : List EdgeM :=
  cmds.flatMap (fun cmd =>
    pyShellExts.flatMap (fun ext =>
      if containsSub cmd ext then
        ((pyWords cmd).filter (fun tok => endsWithS tok ext)).map (fun p =>
          { src := rel, dst := p, kind := chars "call", command := cmd,
            dynamic := false, resolved := true, confidence := mkRat 8 10 })
      else []))

/-- Embedding of `parse_python_cli`: the `try` covers only `ast.parse`
(`tree = none` models a caught `SyntaxError`, returning no edges);
`v.visit(tree)` runs outside the `try`, so a visitor exception
propagates to the caller. -/
def parsePythonCli (rel : Str) (tree : Option PyTree) : Except PyExc (List EdgeM) :=
  match tree with
  | none => .ok []
  | some t =>
    match visitCmds t with
    | .error e => .error e
    | .ok cmds => .ok (pyCliEdges rel cmds)

/-- One file of the bundle as the scanner sees it: the root-relative
POSIX path, the lower-cased suffix, the `read_text` outcome (`none`
models an `OSError`), and, for `.py` files, the `ast.parse` outcome of
that text (`none` models a `SyntaxError`). -/
structure ScanFile where
  rel : Str
  suffix : Str
  readRes : Option Str
  pyTree : Option PyTree

/-- Embedding of `Scanner._canon_rel_str`: backslashes to `'/'`, one
leading `"./"` stripped, `"//"` collapsed, lower-cased on a Windows
bundle. -/
def scCanonRel (w : Bool) (s : Str) : Str :=
  let s1 := pyReplace s bsL slashL
  let s2 := if hasPfxL dotSlashL s1 then s1.drop 2 else s1
  let s3 := collapseSlashes s2
  if w then toLowerS s3 else s3

/-- The two parsers of the scanner's table that this claim's sources
cite.  The source table also maps `.bat`/`.cmd`, `.ps1` and `.pl` to
their line parsers; those are total line scanners and the bundles below
contain no such files, so the model's table carries the shell and
Python parsers and skips other suffixes like the source's
`if not parser: continue`. -/
inductive ScanParser
  | shellP
  | pythonP

/-- Parser lookup by lower-cased suffix. -/
def parserFor (sfx : Str) : Option ScanParser :=
  if sfx = chars ".sh" ∨ sfx = chars ".bash" ∨ sfx = chars ".ksh" then some .shellP
  else if sfx = chars ".py" then some .pythonP
  else none

/-- The per-edge post-processing of `Scanner.scan`: canonicalize the
source, and the destination directly when it contains `'$'`, otherwise
through `norm_path` (whose `Path.resolve` touches the filesystem and
enters as the parameter `normFS`). -/
def scanPost (w : Bool) (normFS : Str → Str) (g : GraphM) (edges : List EdgeM) : GraphM :=
  edges.foldl
    (fun gg e =>
      gg.addEdge
        { e with src := scCanonRel w e.src,
                 dst := if containsSub e.dst (chars "$") then scCanonRel w e.dst
                        else scCanonRel w (normFS e.dst) })
    g

/-- One file of the `Scanner.scan` loop: skip non-included suffixes,
add the node, look up the parser, skip on a read failure (the only
`try` in the loop), then run the parser — whose exception, if any,
propagates out of the whole scan — and post-process its edges. -/
def scanStep (w : Bool) (includeExt : List Str) (normFS : Str → Str)
    (g : GraphM) (f : ScanFile) : Except PyExc GraphM :=
  if toLowerS f.suffix ∉ includeExt then .ok g
  else
    let rel := scCanonRel w f.rel
    let g1 := g.addNode rel
    match parserFor (toLowerS f.suffix) with
    | none => .ok g1
    | some pr =>
      match f.readRes with
      | none => .ok g1
      | some text =>
        match pr with
        | .shellP => .ok (scanPost w normFS g1 (parseShell rel text))
        | .pythonP =>
          match parsePythonCli rel f.pyTree with
          | .error e => .error e
          | .ok edges => .ok (scanPost w normFS g1 edges)

/-- Functional model of `Scanner.scan` over the indexed files. -/
def scanModel (w : Bool) (includeExt : List Str) (normFS : Str → Str)
    (files : List ScanFile) : Except PyExc GraphM :=
  files.foldlM (scanStep w includeExt normFS) emptyG

/-- The error projection of a scan outcome. -/
def scanErr (r : Except PyExc GraphM) : Option PyExc :=
  match r with
  | .error e => some e
  | .ok _ => none

/-- Whether a scan completed. -/
def scanOk (r : Except PyExc GraphM) : Bool :=
  match r with
  | .error _ => false
  | .ok _ => true

/-- The failing bundle of claim C6: a single Python file whose text is
`import subprocess` followed by `subprocess.run()` — a recognized
callable with no arguments.  Its AST is
`Module(body=[Import, Expr(Call(func=Attribute(attr="run"), args=[]))])`. -/
def c6Bundle : List ScanFile :=
  [{ rel := chars "a.py", suffix := chars ".py",
     readRes := some (chars "import subprocess\nsubprocess.run()\n"),
     pyTree := some (.plain (.consT (.plain .nilT)
       (.consT (.plain (.consT (.callE (chars "run") .nilT) .nilT)) .nilT))) }]

/-- A bundle whose first file fails to read: the scanner's `try` around
`read_text` skips it and the scan continues. -/
def c6ReadBundle : List ScanFile :=
  [{ rel := chars "bad.sh", suffix := chars ".sh", readRes := none, pyTree := none },
   { rel := chars "run.sh", suffix := chars ".sh",
     readRes := some (chars "./utils/prep.sh\n"), pyTree := none }]

/-- Claim C6, the code at the failing input: scanning a bundle whose
only file is a Python script containing `subprocess.run()` aborts the
whole scan with `UnboundLocalError` — `visit_Call` leaves `arg0`
unassigned when `node.args` is empty and the scan loop guards only the
file read, not the parser call.  A file whose *read* fails is indeed
skipped and the scan continues. -/
theorem c6_bug :
    scanErr (scanModel false [chars ".py", chars ".sh"] (fun p => p) c6Bundle) =
      some .unboundLocal ∧
    scanOk (scanModel false [chars ".py", chars ".sh"] (fun p => p) c6ReadBundle) = true := by
  decide
